import Mathlib

/-!
Shallow embedding of the strategy-graph engine in `src/core/graph_runtime.py`:
the `StrategyGraph` data structure (node map, connection list, cycle check,
Kahn topological order) and the `GraphRuntime` execution engine
(`execute`, `_prepare_node_inputs`, `_get_terminal_nodes`, statistics).

Modelling conventions:
* Python `Dict[str, T]` (insertion-ordered, unique keys) is an association
  list `SDict T` with `dget` (lookup) and `dinsert` (overwrite-or-append).
* Python exceptions are `Except`: a function that can raise returns
  `Except e a`; a raise before any mutation is a pure `.error`.
* `datetime.utcnow()` readings are supplied as explicit `Nat` arguments
  (`tStart`, `tEnd`); durations are computed from them.  Wall-clock fields
  that no claim touches are left out of the records.
* Arbitrary Python payload values (`Any`) are an opaque type parameter `Val`.
* A node's overridable `async execute` method is a field
  `run : NodeExecutionContext Val → Except String (NodeExecutionResult Val)`;
  `.error` models the coroutine raising.
-/

namespace GraphRuntimeModel

/-- Insertion-ordered string-keyed dictionary, as in Python `dict`. -/
abbrev SDict (α : Type) := List (String × α)

/-- Dictionary lookup: `d[k]` / `k in d`. -/
def dget {α : Type} : SDict α → String → Option α
  | [], _ => none
  | (k', v) :: d, k => if k' = k then some v else dget d k

/-- Dictionary assignment `d[k] = v`: overwrite in place, else append
(Python dicts keep insertion order and update keys in place). -/
def dinsert {α : Type} : SDict α → String → α → SDict α
  | [], k, v => [(k, v)]
  | (k', v') :: d, k, v =>
      if k' = k then (k, v) :: d else (k', v') :: dinsert d k v

/-- The key list of a dictionary, in insertion order. -/
def dkeys {α : Type} (d : SDict α) : List String := d.map (·.1)

/-- `d.update(e)`: assign every entry of `e` into `d`, in order. -/
def dupdate {α : Type} (d e : SDict α) : SDict α :=
  e.foldl (fun acc p => dinsert acc p.1 p.2) d

@[simp] theorem dget_nil {α : Type} (k : String) : dget ([] : SDict α) k = none := rfl

@[simp] theorem dget_cons {α : Type} (k' k : String) (v : α) (d : SDict α) :
    dget ((k', v) :: d) k = if k' = k then some v else dget d k := rfl

@[simp] theorem dkeys_nil {α : Type} : dkeys ([] : SDict α) = [] := rfl

@[simp] theorem dkeys_cons {α : Type} (p : String × α) (d : SDict α) :
    dkeys (p :: d) = p.1 :: dkeys d := rfl

theorem dget_dinsert_self {α : Type} (d : SDict α) (k : String) (v : α) :
    dget (dinsert d k v) k = some v := by
  induction d with
  | nil => simp [dinsert]
  | cons p d ih =>
      obtain ⟨k', v'⟩ := p
      by_cases h : k' = k
      · simp [dinsert, h]
      · simp [dinsert, h, ih]

theorem dget_dinsert_ne {α : Type} (d : SDict α) (k k' : String) (v : α)
    (hne : k ≠ k') : dget (dinsert d k v) k' = dget d k' := by
  induction d with
  | nil => simp [dinsert, fun h => hne h]
  | cons p d ih =>
      obtain ⟨a, b⟩ := p
      by_cases h : a = k
      · subst h
        simp [dinsert, fun h => hne h]
      · simp [dinsert, h, ih]

theorem dkeys_dinsert_mem {α : Type} (d : SDict α) (k : String) (v : α)
    (h : k ∈ dkeys d) : dkeys (dinsert d k v) = dkeys d := by
  induction d with
  | nil => simp at h
  | cons p d ih =>
      obtain ⟨a, b⟩ := p
      by_cases hp : a = k
      · simp [dinsert, hp]
      · have h' : k ∈ dkeys d := by
          rcases (by simpa using h) with h | h
          · exact absurd h.symm hp
          · exact h
        simp [dinsert, hp, ih h']

theorem dkeys_dinsert_not_mem {α : Type} (d : SDict α) (k : String) (v : α)
    (h : k ∉ dkeys d) : dkeys (dinsert d k v) = dkeys d ++ [k] := by
  induction d with
  | nil => simp [dinsert]
  | cons p d ih =>
      obtain ⟨a, b⟩ := p
      have hp : a ≠ k := by
        intro hc; exact h (by simp [hc])
      have h' : k ∉ dkeys d := by
        intro hc; exact h (by simp; right; exact hc)
      simp [dinsert, hp, ih h']

theorem dget_mem_keys {α : Type} (d : SDict α) (k : String) (v : α)
    (h : dget d k = some v) : k ∈ dkeys d := by
  induction d with
  | nil => simp [dget] at h
  | cons p d ih =>
      obtain ⟨a, b⟩ := p
      by_cases hp : a = k
      · simp [hp]
      · simp [dget, hp] at h
        simp
        right
        exact ih h

theorem dget_isSome_of_mem_keys {α : Type} (d : SDict α) (k : String)
    (h : k ∈ dkeys d) : (dget d k).isSome := by
  induction d with
  | nil => simp at h
  | cons p d ih =>
      obtain ⟨a, b⟩ := p
      by_cases hp : a = k
      · simp [dget, hp]
      · rcases (by simpa using h) with h | h
        · exact absurd h.symm hp
        · simp [dget, hp]
          exact ih h

theorem dget_eq_none_of_not_mem_keys {α : Type} (d : SDict α) (k : String)
    (h : k ∉ dkeys d) : dget d k = none := by
  induction d with
  | nil => rfl
  | cons p d ih =>
      obtain ⟨a, b⟩ := p
      have hp : a ≠ k := fun hc => h (by simp [hc])
      have h' : k ∉ dkeys d := fun hc => h (by simp; right; exact hc)
      simp [dget, hp]
      exact ih h'

/-! ### Enumerations from the source -/

/-- `NodeCategory` enum. -/
inductive NodeCategory where
  | SOURCE | TRANSFORM | CONDITION | SCORER | RISK
  | OPTIMIZER | EXECUTOR | MONITOR | GATE | CUSTOM
deriving DecidableEq, Repr

/-- `NodeStatus` enum. -/
inductive NodeStatus where
  | PENDING | RUNNING | COMPLETED | FAILED | SKIPPED | CANCELLED
deriving DecidableEq, Repr

/-- `GraphExecutionStatus` enum. -/
inductive GraphExecutionStatus where
  | PENDING | RUNNING | COMPLETED | FAILED | CANCELLED
deriving DecidableEq, Repr

/-! ### Data classes from the source -/

/-- `NodeInput` dataclass (the runtime only consults `name`). -/
structure NodeInput where
  name : String
  data_type : String := "any"
  required : Bool := true
deriving DecidableEq, Repr

/-- `NodeOutput` dataclass. -/
structure NodeOutput where
  name : String
  data_type : String := "any"
deriving DecidableEq, Repr

/-- `NodeConnection` dataclass. -/
structure NodeConnection where
  from_node_id : String
  from_output_index : Nat
  to_node_id : String
  to_input_index : Nat
deriving DecidableEq, Repr

/-- `NodeExecutionContext` dataclass (wall-clock fields omitted). -/
structure NodeExecutionContext (Val : Type) where
  node_id : String
  graph_id : String
  execution_id : String
  inputs : SDict Val := []
  shared_state : SDict Val := []
deriving DecidableEq

/-- `NodeExecutionResult` dataclass. -/
structure NodeExecutionResult (Val : Type) where
  node_id : String
  status : NodeStatus
  outputs : SDict Val := []
  error_message : Option String := none
  execution_time_ms : Option Nat := none
  metadata : SDict Val := []
deriving DecidableEq

/-- `Node` base class: identity, declared interface, and the overridable
`execute` coroutine (field `run`; `.error` models a raised exception). -/
structure Node (Val : Type) where
  node_id : String
  node_type : String
  category : NodeCategory
  inputs : List NodeInput
  outputs : List NodeOutput
  config : SDict Val := []
  run : NodeExecutionContext Val → Except String (NodeExecutionResult Val)

/-- `StrategyGraph` dataclass (timestamps omitted). -/
structure StrategyGraph (Val : Type) where
  graph_id : String
  name : String
  description : Option String := none
  nodes : SDict (Node Val) := []
  connections : List NodeConnection := []
  version : String := "1.0.0"
  tags : List String := []

/-- `GraphExecutionResult` dataclass. -/
structure GraphExecutionResult (Val : Type) where
  execution_id : String
  graph_id : String
  status : GraphExecutionStatus
  node_results : SDict (NodeExecutionResult Val) := []
  final_outputs : SDict (SDict Val) := []
  opportunities : List Val := []
  started_at : Nat
  completed_at : Option Nat := none
  execution_time_ms : Option Nat := none
  error_message : Option String := none
  failed_node_id : Option String := none
deriving DecidableEq

/-! ### Graph structure operations -/

/-- The key list of the node map (`for node_id in self.nodes`). -/
def keys {Val : Type} (g : StrategyGraph Val) : List String := dkeys g.nodes

/-- `add_node`: `self.nodes[node.node_id] = node` (overwrites an existing id). -/
def add_node {Val : Type} (g : StrategyGraph Val) (n : Node Val) : StrategyGraph Val :=
  { g with nodes := dinsert g.nodes n.node_id n }

/-- Adjacency list built from a connection list, exactly as both
`_would_create_cycle` and `get_topological_order` build it:
`adj[conn.from_node_id].append(conn.to_node_id)` over the list in order. -/
def adjOf (conns : List NodeConnection) (u : String) : List String :=
  (conns.filter (fun c => c.from_node_id = u)).map (·.to_node_id)

/-- The edge step relation of a connection list. -/
def EdgeStep (conns : List NodeConnection) (u v : String) : Prop :=
  ∃ c ∈ conns, c.from_node_id = u ∧ c.to_node_id = v

/-- A connection list is acyclic when no node reaches itself through a
nonempty chain of connections. -/
def AcyclicConns (conns : List NodeConnection) : Prop :=
  ∀ u, ¬ Relation.TransGen (EdgeStep conns) u u

/-- The graph-is-a-DAG property of a `StrategyGraph`. -/
def Acyclic {Val : Type} (g : StrategyGraph Val) : Prop :=
  AcyclicConns g.connections

/-- Endpoint consistency: every connection references mapped nodes. -/
def Consistent {Val : Type} (g : StrategyGraph Val) : Prop :=
  ∀ c ∈ g.connections,
    c.from_node_id ∈ keys g ∧ c.to_node_id ∈ keys g

/-- Node-map well-formedness (automatic for a Python dict): distinct keys. -/
def KeysNodup {Val : Type} (g : StrategyGraph Val) : Prop :=
  (keys g).Nodup

/-- One step of the neighbour loop of `has_cycle`: the body
`if neighbor not in visited: ... elif neighbor in rec_stack: return True`.
`visit` is the recursive call one fuel level down.  Returns the cycle flag
and the visited set (the recursion stack is restored by passing, so only
the visited set threads through). -/
def dfsNbrs (visit : String → List String → List String → Bool × List String) :
    List String → List String → List String → Bool × List String
  | [], vis, _ => (false, vis)
  | w :: ws, vis, stk =>
      if w ∈ vis then
        if w ∈ stk then (true, vis) else dfsNbrs visit ws vis stk
      else
        match visit w vis stk with
        | (true, vis') => (true, vis')
        | (false, vis') => dfsNbrs visit ws vis' stk

/-- `has_cycle(node_id)` from `_would_create_cycle`: mark visited, push on
the recursion stack, scan neighbours.  General recursion is embedded with
a fuel argument; recursion depth is bounded by the number of distinct
nodes ever visited, so the generous fuel chosen at the call site is never
exhausted on inputs the source can construct. -/
def dfsVisit (adj : String → List String) :
    Nat → String → List String → List String → Bool × List String
  | 0, _, vis, _ => (true, vis)
  | fuel + 1, u, vis, stk => dfsNbrs (dfsVisit adj fuel) (adj u) (u :: vis) (u :: stk)

/-- The driver loop of `_would_create_cycle`:
`for node_id in self.nodes: if node_id not in visited: if has_cycle(...)`. -/
def dfsAll (adj : String → List String) (fuel : Nat) :
    List String → List String → Bool
  | [], _ => false
  | n :: ns, vis =>
      if n ∈ vis then dfsAll adj fuel ns vis
      else
        match dfsVisit adj fuel n vis [] with
        | (true, _) => true
        | (false, vis') => dfsAll adj fuel ns vis'

/-- `_would_create_cycle`: build the adjacency list from the existing
connections plus the candidate, and DFS from every mapped node. -/
def would_create_cycle {Val : Type} (g : StrategyGraph Val) (c : NodeConnection) : Bool :=
  dfsAll (adjOf (g.connections ++ [c]))
    (g.nodes.length + 2 * g.connections.length + 3) (keys g) []

/-- The exceptions `add_connection` can raise (`ValueError` carriers). -/
inductive AddConnError where
  | sourceNotFound (node_id : String)
  | targetNotFound (node_id : String)
  | cycleDetected
deriving DecidableEq, Repr

/-- `add_connection`: validate endpoints, check for cycles, then append.
Returned as (outcome, state after the call); every raise happens before
any mutation, so on error the state is the input graph. -/
def add_connection {Val : Type} (g : StrategyGraph Val) (c : NodeConnection) :
    Except AddConnError Unit × StrategyGraph Val :=
  if (dget g.nodes c.from_node_id).isNone then
    (.error (.sourceNotFound c.from_node_id), g)
  else if (dget g.nodes c.to_node_id).isNone then
    (.error (.targetNotFound c.to_node_id), g)
  else if would_create_cycle g c then
    (.error .cycleDetected, g)
  else
    (.ok (), { g with connections := g.connections ++ [c] })

/-! ### Soundness of the DFS cycle check -/

/-- Step relation of an adjacency function. -/
def AdjStep (adj : String → List String) (u v : String) : Prop := v ∈ adj u

/-- No cycle is reachable from `u` in the adjacency graph. -/
def SafeFrom (adj : String → List String) (u : String) : Prop :=
  ∀ v, Relation.ReflTransGen (AdjStep adj) u v →
    ¬ Relation.TransGen (AdjStep adj) v v

/-- If every successor of `u` is safe, so is `u`: a cycle reachable from
`u` either avoids `u` (then it is reachable from the first step) or
passes through `u` (then it is reachable from `u`'s successor on it). -/
theorem safeFrom_of_nbrs (adj : String → List String) (u : String)
    (h : ∀ w ∈ adj u, SafeFrom adj w) : SafeFrom adj u := by
  intro v hreach hcyc
  rcases Relation.ReflTransGen.cases_head hreach with heq | ⟨w, hstep, hwv⟩
  · subst heq
    rcases (Relation.TransGen.head'_iff).1 hcyc with ⟨w, hstep, hwu⟩
    exact h w hstep w Relation.ReflTransGen.refl
      (Relation.TransGen.tail' hwu hstep)
  · exact h w hstep v hwv hcyc

/-- The "black nodes are safe" invariant: every visited node off the
recursion stack has no reachable cycle. -/
def DfsGood (adj : String → List String) (stk vis : List String) : Prop :=
  ∀ x ∈ vis, x ∉ stk → SafeFrom adj x

/-- Postcondition of the neighbour scan when it reports no cycle,
parameterised by the recursive visitor's own postcondition. -/
theorem dfsNbrs_false (adj : String → List String)
    (visit : String → List String → List String → Bool × List String)
    (stk : List String)
    (hvisit : ∀ w vis vis', stk ⊆ vis → DfsGood adj stk vis →
      visit w vis stk = (false, vis') →
      vis ⊆ vis' ∧ w ∈ vis' ∧ DfsGood adj stk vis') :
    ∀ ws vis vis', stk ⊆ vis → DfsGood adj stk vis →
      dfsNbrs visit ws vis stk = (false, vis') →
      vis ⊆ vis' ∧ DfsGood adj stk vis' ∧ ∀ w ∈ ws, w ∈ vis' ∧ w ∉ stk := by
  intro ws
  induction ws with
  | nil =>
      intro vis vis' hsub hgood hrun
      simp [dfsNbrs] at hrun
      subst hrun
      exact ⟨List.Subset.refl _, hgood, by simp⟩
  | cons w ws ih =>
      intro vis vis' hsub hgood hrun
      by_cases hv : w ∈ vis
      · by_cases hs : w ∈ stk
        · simp [dfsNbrs, hv, hs] at hrun
        · simp [dfsNbrs, hv, hs] at hrun
          obtain ⟨h1, h2, h3⟩ := ih vis vis' hsub hgood hrun
          refine ⟨h1, h2, ?_⟩
          intro x hx
          rcases List.mem_cons.1 hx with hx | hx
          · subst hx; exact ⟨h1 hv, hs⟩
          · exact h3 x hx
      · have hs : w ∉ stk := fun hc => hv (hsub hc)
        rcases hv1 : visit w vis stk with ⟨b, vis₁⟩
        cases b with
        | true => simp [dfsNbrs, hv, hv1] at hrun
        | false =>
            simp [dfsNbrs, hv, hv1] at hrun
            obtain ⟨hsub1, hw1, hgood1⟩ := hvisit w vis vis₁ hsub hgood hv1
            have hsub1' : stk ⊆ vis₁ := fun x hx => hsub1 (hsub hx)
            obtain ⟨h1, h2, h3⟩ := ih vis₁ vis' hsub1' hgood1 hrun
            refine ⟨fun x hx => h1 (hsub1 hx), h2, ?_⟩
            intro x hx
            rcases List.mem_cons.1 hx with hx | hx
            · subst hx; exact ⟨h1 hw1, hs⟩
            · exact h3 x hx

/-- Postcondition of `has_cycle(u)` when it reports no cycle: the visited
set grows, `u` is visited, and every black node — now including `u` — is
safe. -/
theorem dfsVisit_false (adj : String → List String) :
    ∀ fuel u vis stk vis', stk ⊆ vis → DfsGood adj stk vis →
      dfsVisit adj fuel u vis stk = (false, vis') →
      vis ⊆ vis' ∧ u ∈ vis' ∧ DfsGood adj stk vis' := by
  intro fuel
  induction fuel with
  | zero => intro u vis stk vis' _ _ hrun; simp [dfsVisit] at hrun
  | succ fuel ih =>
      intro u vis stk vis' hsub hgood hrun
      simp only [dfsVisit] at hrun
      have hsub' : (u :: stk) ⊆ (u :: vis) := by
        intro x hx
        rcases List.mem_cons.1 hx with hx | hx
        · simp [hx]
        · exact List.mem_cons_of_mem _ (hsub hx)
      have hgood' : DfsGood adj (u :: stk) (u :: vis) := by
        intro x hx hnx
        have hxu : x ≠ u := fun hc => hnx (by simp [hc])
        have hxv : x ∈ vis := by
          rcases List.mem_cons.1 hx with hx | hx
          · exact absurd hx hxu
          · exact hx
        exact hgood x hxv (fun hc => hnx (List.mem_cons_of_mem _ hc))
      obtain ⟨h1, h2, h3⟩ :=
        dfsNbrs_false adj (dfsVisit adj fuel) (u :: stk)
          (fun w vis₀ vis₀' hs hg hr => ih w vis₀ (u :: stk) vis₀' hs hg hr)
          (adj u) (u :: vis) vis' hsub' hgood' hrun
      have huv : u ∈ vis' := h1 (by simp)
      refine ⟨fun x hx => h1 (List.mem_cons_of_mem _ hx), huv, ?_⟩
      intro x hx hnx
      by_cases hxu : x = u
      · subst hxu
        refine safeFrom_of_nbrs adj x ?_
        intro w hw
        obtain ⟨hw1, hw2⟩ := h3 w hw
        exact h2 w hw1 hw2
      · exact h2 x hx (by simp [hxu, hnx])

/-- Postcondition of the driver loop when it reports no cycle: every
scanned start node (and every node it visited) has no reachable cycle. -/
theorem dfsAll_false (adj : String → List String) (fuel : Nat) :
    ∀ ns vis, (∀ x ∈ vis, SafeFrom adj x) →
      dfsAll adj fuel ns vis = false →
      ∀ n ∈ ns, SafeFrom adj n := by
  intro ns
  induction ns with
  | nil => intro vis _ _ n hn; simp at hn
  | cons n ns ih =>
      intro vis hvis hrun m hm
      by_cases hv : n ∈ vis
      · simp only [dfsAll, if_pos hv] at hrun
        rcases List.mem_cons.1 hm with hm | hm
        · subst hm; exact hvis m hv
        · exact ih vis hvis hrun m hm
      · rcases hv1 : dfsVisit adj fuel n vis [] with ⟨b, vis₁⟩
        cases b with
        | true => simp [dfsAll, hv, hv1] at hrun
        | false =>
            simp only [dfsAll, if_neg hv, hv1] at hrun
            have hgood : DfsGood adj [] vis := fun x hx _ => hvis x hx
            obtain ⟨h1, h2, h3⟩ :=
              dfsVisit_false adj fuel n vis [] vis₁ (by simp) hgood hv1
            have hvis₁ : ∀ x ∈ vis₁, SafeFrom adj x :=
              fun x hx => h3 x hx (by simp)
            rcases List.mem_cons.1 hm with hm | hm
            · subst hm; exact hvis₁ m h2
            · exact ih vis₁ hvis₁ hrun m hm

/-- The adjacency-list step relation coincides with the connection-list
edge relation. -/
theorem adjStep_eq_edgeStep (conns : List NodeConnection) :
    AdjStep (adjOf conns) = EdgeStep conns := by
  funext u v
  apply propext
  simp only [AdjStep, adjOf, EdgeStep, List.mem_map, List.mem_filter,
    decide_eq_true_eq]
  constructor
  · rintro ⟨c, ⟨hc, hf⟩, ht⟩; exact ⟨c, hc, hf, ht⟩
  · rintro ⟨c, hc, hf, ht⟩; exact ⟨c, ⟨hc, hf⟩, ht⟩

/-- Edge relation of an extended connection list. -/
theorem edgeStep_append (conns : List NodeConnection) (c : NodeConnection)
    (u v : String) :
    EdgeStep (conns ++ [c]) u v ↔
      EdgeStep conns u v ∨ (u = c.from_node_id ∧ v = c.to_node_id) := by
  simp only [EdgeStep, List.mem_append, List.mem_singleton]
  constructor
  · rintro ⟨d, hd | hd, hf, ht⟩
    · exact Or.inl ⟨d, hd, hf, ht⟩
    · subst hd; exact Or.inr ⟨hf.symm, ht.symm⟩
  · rintro (⟨d, hd, hf, ht⟩ | ⟨hf, ht⟩)
    · exact ⟨d, Or.inl hd, hf, ht⟩
    · exact ⟨c, Or.inr rfl, hf.symm, ht.symm⟩

/-- A chain over the extended edge set either already exists over the old
edges, or its first use of the new edge splits it at the new edge's
source. -/
theorem transGen_append_split (conns : List NodeConnection) (c : NodeConnection)
    {a b : String}
    (h : Relation.TransGen (EdgeStep (conns ++ [c])) a b) :
    Relation.TransGen (EdgeStep conns) a b ∨
      (Relation.ReflTransGen (EdgeStep conns) a c.from_node_id ∧
        Relation.ReflTransGen (EdgeStep (conns ++ [c])) c.to_node_id b) := by
  induction h with
  | single h =>
      rcases (edgeStep_append conns c _ _).1 h with h | ⟨hf, ht⟩
      · exact Or.inl (Relation.TransGen.single h)
      · subst hf; subst ht
        exact Or.inr ⟨Relation.ReflTransGen.refl, Relation.ReflTransGen.refl⟩
  | tail hab hbc ih =>
      rcases ih with ih | ⟨h1, h2⟩
      · rcases (edgeStep_append conns c _ _).1 hbc with h | ⟨hf, ht⟩
        · exact Or.inl (Relation.TransGen.tail ih h)
        · subst hf; subst ht
          exact Or.inr ⟨ih.to_reflTransGen, Relation.ReflTransGen.refl⟩
      · exact Or.inr ⟨h1, Relation.ReflTransGen.tail h2 hbc⟩

/-- If the old graph is acyclic and no cycle is reachable from the new
edge's source in the extended graph, the extended graph is acyclic. -/
theorem acyclicConns_append (conns : List NodeConnection) (c : NodeConnection)
    (hold : AcyclicConns conns)
    (hsafe : SafeFrom (adjOf (conns ++ [c])) c.from_node_id) :
    AcyclicConns (conns ++ [c]) := by
  intro z hcyc
  rcases transGen_append_split conns c hcyc with h | ⟨h1, h2⟩
  · exact hold z h
  · have hmono : ∀ x y, EdgeStep conns x y → EdgeStep (conns ++ [c]) x y := by
      intro x y hxy
      exact (edgeStep_append conns c x y).2 (Or.inl hxy)
    have hzf : Relation.ReflTransGen (EdgeStep (conns ++ [c])) z c.from_node_id :=
      Relation.ReflTransGen.mono hmono h1
    have hstep : EdgeStep (conns ++ [c]) c.from_node_id c.to_node_id :=
      (edgeStep_append conns c _ _).2 (Or.inr ⟨rfl, rfl⟩)
    have hcycf : Relation.TransGen (EdgeStep (conns ++ [c]))
        c.from_node_id c.from_node_id :=
      Relation.TransGen.head' hstep (Relation.ReflTransGen.trans h2 hzf)
    rw [← adjStep_eq_edgeStep] at hcycf
    exact hsafe c.from_node_id Relation.ReflTransGen.refl hcycf

/-- `_would_create_cycle` returning `False` guarantees no cycle is
reachable from any mapped node in the extended graph. -/
theorem would_create_cycle_false_safe {Val : Type} (g : StrategyGraph Val)
    (c : NodeConnection) (h : would_create_cycle g c = false) :
    ∀ n ∈ keys g, SafeFrom (adjOf (g.connections ++ [c])) n := by
  intro n hn
  exact dfsAll_false (adjOf (g.connections ++ [c]))
    (g.nodes.length + 2 * g.connections.length + 3) (keys g) []
    (by intro x hx; simp at hx) h n hn

theorem mem_keys_of_isSome {α : Type} (d : SDict α) (k : String)
    (h : (dget d k).isSome) : k ∈ dkeys d := by
  rcases Option.isSome_iff_exists.1 h with ⟨v, hv⟩
  exact dget_mem_keys d k v hv

theorem mem_dkeys_dinsert {α : Type} (d : SDict α) (k k' : String) (v : α)
    (h : k ∈ dkeys d) : k ∈ dkeys (dinsert d k' v) := by
  by_cases h' : k' ∈ dkeys d
  · rw [dkeys_dinsert_mem d k' v h']; exact h
  · rw [dkeys_dinsert_not_mem d k' v h']; exact List.mem_append_left _ h

/-- There are no edges over an empty connection list. -/
theorem edgeStep_nil (u v : String) : ¬ EdgeStep [] u v := by
  rintro ⟨c, hc, -, -⟩
  simp at hc

/-- An empty connection list is acyclic. -/
theorem acyclicConns_nil : AcyclicConns [] := by
  intro u h
  rcases (Relation.TransGen.head'_iff).1 h with ⟨w, hw, -⟩
  exact edgeStep_nil u w hw

/-- Helper: full case analysis of `add_connection`. -/
theorem add_connection_cases {Val : Type} (g : StrategyGraph Val)
    (c : NodeConnection) (hacyc : Acyclic g) :
    ((add_connection g c).1 = .ok () →
      (add_connection g c).2.nodes = g.nodes ∧
      (add_connection g c).2.connections = g.connections ++ [c] ∧
      Acyclic (add_connection g c).2) ∧
    (∀ e, (add_connection g c).1 = .error e →
      (add_connection g c).2 = g ∧
      ((e = .sourceNotFound c.from_node_id ∧ dget g.nodes c.from_node_id = none) ∨
       (e = .targetNotFound c.to_node_id ∧ dget g.nodes c.to_node_id = none) ∨
       e = .cycleDetected)) := by
  by_cases h1 : (dget g.nodes c.from_node_id).isNone
  · constructor
    · intro hok; simp [add_connection, h1] at hok
    · intro e he
      simp [add_connection, h1] at he
      subst he
      exact ⟨by simp [add_connection, h1],
        Or.inl ⟨rfl, Option.isNone_iff_eq_none.1 h1⟩⟩
  · by_cases h2 : (dget g.nodes c.to_node_id).isNone
    · constructor
      · intro hok; simp [add_connection, h1, h2] at hok
      · intro e he
        simp [add_connection, h1, h2] at he
        subst he
        exact ⟨by simp [add_connection, h1, h2],
          Or.inr (Or.inl ⟨rfl, Option.isNone_iff_eq_none.1 h2⟩)⟩
    · by_cases h3 : would_create_cycle g c
      · constructor
        · intro hok; simp [add_connection, h1, h2, h3] at hok
        · intro e he
          simp [add_connection, h1, h2, h3] at he
          subst he
          exact ⟨by simp [add_connection, h1, h2, h3], Or.inr (Or.inr rfl)⟩
      · constructor
        · intro _
          refine ⟨by simp [add_connection, h1, h2, h3], by simp [add_connection, h1, h2, h3], ?_⟩
          have hfrom : c.from_node_id ∈ keys g := by
            refine mem_keys_of_isSome _ _ ?_
            cases hx : dget g.nodes c.from_node_id with
            | none => exact absurd (by simp [hx]) h1
            | some v => simp
          have hsafe := would_create_cycle_false_safe g c
            (Bool.not_eq_true _ ▸ (by simpa using h3)) c.from_node_id hfrom
          show AcyclicConns (add_connection g c).2.connections
          have hconn : (add_connection g c).2.connections = g.connections ++ [c] := by
            simp [add_connection, h1, h2, h3]
          rw [hconn]
          exact acyclicConns_append g.connections c hacyc hsafe
        · intro e he; simp [add_connection, h1, h2, h3] at he

/-- C2: `add_connection` either succeeds, appending exactly the candidate
connection while leaving the node map untouched and keeping the graph
acyclic, or raises NodeNotFound (an endpoint id absent from the node map)
or CycleDetected, leaving the graph exactly as it was. -/
theorem add_connection_spec {Val : Type} (g : StrategyGraph Val)
    (c : NodeConnection) (hacyc : Acyclic g) :
    ((add_connection g c).1 = .ok () →
      (add_connection g c).2.nodes = g.nodes ∧
      (add_connection g c).2.connections = g.connections ++ [c] ∧
      Acyclic (add_connection g c).2) ∧
    (∀ e, (add_connection g c).1 = .error e →
      (add_connection g c).2 = g ∧
      ((e = .sourceNotFound c.from_node_id ∧ dget g.nodes c.from_node_id = none) ∨
       (e = .targetNotFound c.to_node_id ∧ dget g.nodes c.to_node_id = none) ∨
       e = .cycleDetected)) :=
  add_connection_cases g c hacyc

/-- A stub `run` behaviour: the base class raises `NotImplementedError`. -/
def stubRun {Val : Type} :
    NodeExecutionContext Val → Except String (NodeExecutionResult Val) :=
  fun _ => .error "Node custom must implement execute()"

/-- Construct a `Node` with the base-class behaviour. -/
def mkNode (Val : Type) (id : String) (ins : List NodeInput)
    (outs : List NodeOutput) : Node Val :=
  { node_id := id, node_type := "custom", category := .CUSTOM,
    inputs := ins, outputs := outs, run := stubRun }

/-- Concrete two-node graph used to exercise `add_connection`. -/
def gAB : StrategyGraph Nat :=
  { graph_id := "g1", name := "demo",
    nodes := [("A", mkNode Nat "A" [] [⟨"x", "any"⟩]),
              ("B", mkNode Nat "B" [⟨"y", "any", true⟩] [])],
    connections := [] }

/-- Witness for C2 at the concrete graph `gAB` and connection A→B. -/
theorem add_connection_spec_witness :
    (add_connection gAB ⟨"A", 0, "B", 0⟩).2.connections =
      gAB.connections ++ [⟨"A", 0, "B", 0⟩] ∧
    Acyclic (add_connection gAB ⟨"A", 0, "B", 0⟩).2 := by
  have hacyc : Acyclic gAB := acyclicConns_nil
  have h := (add_connection_spec gAB ⟨"A", 0, "B", 0⟩ hacyc).1 rfl
  exact ⟨h.2.1, h.2.2⟩

/-! ### Mutation sequences (claim C6) -/

/-- One call against the graph-building API. -/
inductive GraphOp (Val : Type) where
  | addNodeOp (n : Node Val)
  | addConnOp (c : NodeConnection)

/-- Apply one call; a raising `add_connection` leaves the graph as it was,
so only the successful calls count. -/
def applyOp {Val : Type} (g : StrategyGraph Val) : GraphOp Val → StrategyGraph Val
  | .addNodeOp n => add_node g n
  | .addConnOp c => (add_connection g c).2

/-- Apply a sequence of calls in order. -/
def applyOps {Val : Type} (g : StrategyGraph Val) (ops : List (GraphOp Val)) :
    StrategyGraph Val :=
  ops.foldl applyOp g

/-- A freshly constructed `StrategyGraph(graph_id, name)`. -/
def emptyGraph (Val : Type) (gid nm : String) : StrategyGraph Val :=
  { graph_id := gid, name := nm }

/-- `add_node` preserves acyclicity and endpoint consistency. -/
theorem applyOp_addNode_inv {Val : Type} (g : StrategyGraph Val) (n : Node Val)
    (h : Acyclic g ∧ Consistent g) :
    Acyclic (add_node g n) ∧ Consistent (add_node g n) := by
  refine ⟨h.1, ?_⟩
  intro c hc
  obtain ⟨hf, ht⟩ := h.2 c hc
  exact ⟨mem_dkeys_dinsert _ _ _ _ hf, mem_dkeys_dinsert _ _ _ _ ht⟩

/-- `add_connection` preserves acyclicity and endpoint consistency. -/
theorem applyOp_addConn_inv {Val : Type} (g : StrategyGraph Val)
    (c : NodeConnection) (h : Acyclic g ∧ Consistent g) :
    Acyclic (add_connection g c).2 ∧ Consistent (add_connection g c).2 := by
  obtain ⟨hspec_ok, hspec_err⟩ := add_connection_cases g c h.1
  rcases hres : (add_connection g c).1 with e | u
  · have := (hspec_err e hres).1
    rw [this]
    exact h
  · obtain ⟨hnodes, hconns, hacyc⟩ := hspec_ok (by cases u; exact hres)
    refine ⟨hacyc, ?_⟩
    intro d hd
    rw [hconns] at hd
    have hkeys : keys (add_connection g c).2 = keys g := by
      unfold keys; rw [hnodes]
    rcases List.mem_append.1 hd with hd | hd
    · obtain ⟨hf, ht⟩ := h.2 d hd
      exact ⟨hkeys ▸ hf, hkeys ▸ ht⟩
    · have hd' : d = c := List.mem_singleton.1 hd
      subst hd'
      constructor
      · rw [hkeys]
        refine mem_keys_of_isSome _ _ ?_
        by_contra hnone
        have h1 : (dget g.nodes d.from_node_id).isNone :=
          Option.not_isSome_iff_eq_none.1 hnone ▸ rfl
        simp [add_connection, h1] at hres
      · rw [hkeys]
        refine mem_keys_of_isSome _ _ ?_
        by_contra hnone
        have h2 : (dget g.nodes d.to_node_id).isNone :=
          Option.not_isSome_iff_eq_none.1 hnone ▸ rfl
        by_cases h1 : (dget g.nodes d.from_node_id).isNone
        · simp [add_connection, h1] at hres
        · simp [add_connection, h1, h2] at hres

/-- The acyclicity/consistency invariant is inductive over call sequences. -/
theorem applyOps_inv_general {Val : Type} :
    ∀ (ops : List (GraphOp Val)) (g : StrategyGraph Val),
      Acyclic g ∧ Consistent g →
      Acyclic (applyOps g ops) ∧ Consistent (applyOps g ops) := by
  intro ops
  induction ops with
  | nil => intro g h; exact h
  | cons op ops ih =>
      intro g h
      have hstep : Acyclic (applyOp g op) ∧ Consistent (applyOp g op) := by
        cases op with
        | addNodeOp n => exact applyOp_addNode_inv g n h
        | addConnOp c => exact applyOp_addConn_inv g c h
      have : applyOps g (op :: ops) = applyOps (applyOp g op) ops := by
        simp [applyOps]
      rw [this]
      exact ih (applyOp g op) hstep

/-- C6 (amended): after any sequence of `add_node`/`add_connection` calls
on a fresh graph, counting only the successful ones, the graph is acyclic
and every connection's endpoints are mapped.  (The index-bounds part of
the original claim fails; the counterexample is separate.) -/
theorem applyOps_invariant {Val : Type} (ops : List (GraphOp Val))
    (gid nm : String) :
    Acyclic (applyOps (emptyGraph Val gid nm) ops) ∧
      Consistent (applyOps (emptyGraph Val gid nm) ops) := by
  refine applyOps_inv_general ops (emptyGraph Val gid nm) ⟨acyclicConns_nil, ?_⟩
  intro c hc
  simp [emptyGraph] at hc

/-- Counterexample to C6 as stated: `add_connection` accepts an
out-of-bounds `to_input_index` (5 against a single declared input), so the
index-bounds clause of the invariant does not survive mutation. -/
theorem connection_index_bounds_cex :
    (applyOps (emptyGraph Nat "g" "n")
        [.addNodeOp (mkNode Nat "A" [] [⟨"x", "any"⟩]),
         .addNodeOp (mkNode Nat "B" [⟨"y", "any", true⟩] []),
         .addConnOp ⟨"A", 0, "B", 5⟩]).connections = [⟨"A", 0, "B", 5⟩] ∧
    ((dget (applyOps (emptyGraph Nat "g" "n")
        [.addNodeOp (mkNode Nat "A" [] [⟨"x", "any"⟩]),
         .addNodeOp (mkNode Nat "B" [⟨"y", "any", true⟩] []),
         .addConnOp ⟨"A", 0, "B", 5⟩]).nodes "B").map (fun n => n.inputs.length)
      = some 1) ∧
    ¬ ((5 : Nat) < 1) := by
  refine ⟨by decide, by decide, by decide⟩

/-! ### Kahn's algorithm (`get_topological_order`) -/

/-- Read of the `defaultdict(int)` in-degree map: missing keys read 0. -/
def degGet (d : SDict Int) (k : String) : Int := (dget d k).getD 0

/-- The in-degree initialisation of `get_topological_order`: every mapped
node starts at 0, then each connection increments its target. -/
def initInDeg (nodeKeys : List String) (conns : List NodeConnection) : SDict Int :=
  conns.foldl (fun d c => dinsert d c.to_node_id (degGet d c.to_node_id + 1))
    (nodeKeys.foldl (fun d k => dinsert d k 0) [])

/-- One neighbour step of the dequeue loop: decrement the neighbour's
in-degree, enqueue it if the new value is 0.  State is (queue, degrees). -/
def kahnStep (st : List String × SDict Int) (w : String) :
    List String × SDict Int :=
  let d := dinsert st.2 w (degGet st.2 w - 1)
  if degGet d w = 0 then (st.1 ++ [w], d) else (st.1, d)

/-- The dequeue loop of Kahn's algorithm (FIFO queue as a list popped at
the head), embedded with fuel; each iteration pops one node, and a node is
enqueued at most once, so the generous fuel at the call site is never
exhausted. -/
def kahnLoop (adj : String → List String) :
    Nat → List String → List String → SDict Int → List String
  | 0, _, order, _ => order
  | _ + 1, [], order, _ => order
  | fuel + 1, u :: q, order, deg =>
      let st := (adj u).foldl kahnStep (q, deg)
      kahnLoop adj fuel st.1 (order ++ [u]) st.2

/-- `get_topological_order()`: Kahn's algorithm over the node map and
connection list; raises `ValueError` when the order misses nodes. -/
def get_topological_order {Val : Type} (g : StrategyGraph Val) :
    Except String (List String) :=
  let adj := adjOf g.connections
  let deg := initInDeg (keys g) g.connections
  let q := (keys g).filter (fun k => degGet deg k == 0)
  let order := kahnLoop adj (g.nodes.length + g.connections.length + 1) q [] deg
  if order.length = g.nodes.length then .ok order
  else .error "Graph contains a cycle"

/-- `a` appears strictly before `b` in `l`. -/
def Before (l : List String) (a b : String) : Prop :=
  ∃ l₁ l₂, l = l₁ ++ b :: l₂ ∧ a ∈ l₁

/-- Number of connections into `k` whose source has not been emitted. -/
def remCount (conns : List NodeConnection) (order : List String) (k : String) : Nat :=
  conns.countP (fun c => decide (c.to_node_id = k ∧ c.from_node_id ∉ order))

theorem count_adjOf (conns : List NodeConnection) (u k : String) :
    (adjOf conns u).count k =
      conns.countP (fun c => decide (c.from_node_id = u ∧ c.to_node_id = k)) := by
  induction conns with
  | nil => rfl
  | cons c conns ih =>
      by_cases hf : c.from_node_id = u
      · by_cases ht : c.to_node_id = k
        · simp [adjOf, List.filter_cons, hf, ht, List.count_cons, List.countP_cons] at ih ⊢
          omega
        · simp [adjOf, List.filter_cons, hf, ht, List.count_cons, List.countP_cons] at ih ⊢
          exact ih
      · simp [adjOf, List.filter_cons, hf, List.countP_cons] at ih ⊢
        exact ih

theorem remCount_mono (conns : List NodeConnection) (order ext : List String)
    (k : String) :
    remCount conns (order ++ ext) k ≤ remCount conns order k := by
  unfold remCount
  refine List.countP_mono_left ?_
  intro c _ h
  simp only [decide_eq_true_eq] at h ⊢
  exact ⟨h.1, fun hm => h.2 (List.mem_append.2 (Or.inl hm))⟩

theorem remCount_split (conns : List NodeConnection) (order : List String)
    (u k : String) (hu : u ∉ order) :
    remCount conns order k =
      remCount conns (order ++ [u]) k +
        conns.countP (fun c => decide (c.from_node_id = u ∧ c.to_node_id = k)) := by
  induction conns with
  | nil => rfl
  | cons c conns ih =>
      unfold remCount at ih ⊢
      rw [List.countP_cons, List.countP_cons, List.countP_cons]
      have hstep :
          (if (decide (c.to_node_id = k ∧ c.from_node_id ∉ order) : Bool) then 1 else 0) =
          (if (decide (c.to_node_id = k ∧ c.from_node_id ∉ order ++ [u]) : Bool) then 1 else 0) +
          ((if (decide (c.from_node_id = u ∧ c.to_node_id = k) : Bool) then 1 else 0) : Nat) := by
        by_cases ht : c.to_node_id = k
        · by_cases hfu : c.from_node_id = u
          · have h1 : c.from_node_id ∉ order := hfu ▸ hu
            simp [ht, hfu, h1]
            exact hu
          · by_cases hf : c.from_node_id ∈ order
            · simp [ht, hfu, hf, List.mem_append]
            · simp [ht, hfu, hf, List.mem_append]
        · simp [ht]
      rw [ih, hstep]
      omega

theorem remCount_zero_sources (conns : List NodeConnection) (order : List String)
    (k : String) (h : remCount conns order k = 0) :
    ∀ c ∈ conns, c.to_node_id = k → c.from_node_id ∈ order := by
  intro c hc ht
  by_contra hf
  have := List.countP_eq_zero.1 h c hc
  simp [ht, hf] at this

theorem remCount_ne_zero_exists (conns : List NodeConnection)
    (order : List String) (k : String) (h : remCount conns order k ≠ 0) :
    ∃ c ∈ conns, c.to_node_id = k ∧ c.from_node_id ∉ order := by
  have hpos : 0 < conns.countP (fun c => decide (c.to_node_id = k ∧ c.from_node_id ∉ order)) :=
    Nat.pos_of_ne_zero h
  rcases List.countP_pos_iff.1 hpos with ⟨c, hc, hp⟩
  simp at hp
  exact ⟨c, hc, hp⟩

theorem remCount_pos_of_adj (conns : List NodeConnection) (order : List String)
    (u w : String) (hu : u ∉ order) (hw : w ∈ adjOf conns u) :
    remCount conns order w ≠ 0 := by
  simp only [adjOf, List.mem_map, List.mem_filter, decide_eq_true_eq] at hw
  rcases hw with ⟨c, ⟨hc, hf⟩, ht⟩
  intro hzero
  have := List.countP_eq_zero.1 hzero c hc
  simp [ht, hf, hu] at this

/-- Effect of the neighbour-decrement fold: all pending decrements land,
and exactly the neighbours whose count reaches zero are appended, once
each, to the queue.  `D` is the intended final in-degree. -/
theorem kahnFold (D : String → Nat) :
    ∀ (ws q : List String) (deg : SDict Int),
      (∀ k, degGet deg k = (D k : Int) + ws.count k) →
      (∀ v ∈ q, degGet deg v = 0) →
      (∀ k, degGet (ws.foldl kahnStep (q, deg)).2 k = (D k : Int)) ∧
      ∃ nw, (ws.foldl kahnStep (q, deg)).1 = q ++ nw ∧ nw.Nodup ∧
        (∀ w, w ∈ nw ↔ w ∈ ws ∧ D w = 0) := by
  intro ws
  induction ws with
  | nil =>
      intro q deg h1 h2
      refine ⟨fun k => by simpa using h1 k, [], by simp, by simp, by simp⟩
  | cons w ws ih =>
      intro q deg h1 h2
      have hdeg₁ : ∀ k, degGet (dinsert deg w (degGet deg w - 1)) k =
          (D k : Int) + ws.count k := by
        intro k
        by_cases hk : k = w
        · subst hk
          have hw := h1 k
          rw [List.count_cons_self] at hw
          unfold degGet
          rw [dget_dinsert_self]
          simp only [Option.getD_some]
          unfold degGet at hw
          omega
        · unfold degGet
          rw [dget_dinsert_ne _ _ _ _ (fun h => hk h.symm)]
          have hw := h1 k
          rw [List.count_cons_of_ne (fun h => hk h) ] at hw
          exact hw
      by_cases hz : degGet (dinsert deg w (degGet deg w - 1)) w = 0
      · have hstep : kahnStep (q, deg) w = (q ++ [w], dinsert deg w (degGet deg w - 1)) := by
          simp [kahnStep, hz]
        have hDw : D w = 0 ∧ ws.count w = 0 := by
          have := hdeg₁ w
          rw [hz] at this
          constructor <;> omega
        have hwq : w ∉ q := by
          intro hwq
          have hq := h2 w hwq
          have h1w := h1 w
          rw [List.count_cons_self] at h1w
          omega
        have h2' : ∀ v ∈ q ++ [w], degGet (dinsert deg w (degGet deg w - 1)) v = 0 := by
          intro v hv
          rcases List.mem_append.1 hv with hv | hv
          · have hvw : v ≠ w := fun h => hwq (h ▸ hv)
            unfold degGet
            rw [dget_dinsert_ne _ _ _ _ (fun h => hvw h.symm)]
            exact h2 v hv
          · rw [List.mem_singleton.1 hv]
            exact hz
        obtain ⟨hQ1, nw, hq, hnd, hch⟩ :=
          ih (q ++ [w]) (dinsert deg w (degGet deg w - 1)) hdeg₁ h2'
        rw [List.foldl_cons, hstep]
        refine ⟨hQ1, w :: nw, ?_, ?_, ?_⟩
        · rw [hq, List.append_assoc]
          rfl
        · refine List.nodup_cons.2 ⟨?_, hnd⟩
          intro hwnw
          have := (hch w).1 hwnw
          have : ws.count w ≠ 0 := by
            intro hc
            rw [List.count_eq_zero] at hc
            exact hc this.1
          omega
        · intro x
          constructor
          · intro hx
            rcases List.mem_cons.1 hx with hx | hx
            · subst hx; exact ⟨List.mem_cons_self _ _, hDw.1⟩
            · have := (hch x).1 hx
              exact ⟨List.mem_cons_of_mem _ this.1, this.2⟩
          · rintro ⟨hx, hDx⟩
            rcases List.mem_cons.1 hx with hx | hx
            · subst hx; exact List.mem_cons_self _ _
            · exact List.mem_cons_of_mem _ ((hch x).2 ⟨hx, hDx⟩)
      · have hstep : kahnStep (q, deg) w = (q, dinsert deg w (degGet deg w - 1)) := by
          simp [kahnStep, hz]
        have hwq : w ∉ q := by
          intro hwq
          have hq := h2 w hwq
          have h1w := h1 w
          rw [List.count_cons_self] at h1w
          omega
        have h2' : ∀ v ∈ q, degGet (dinsert deg w (degGet deg w - 1)) v = 0 := by
          intro v hv
          have hvw : v ≠ w := fun h => hwq (h ▸ hv)
          unfold degGet
          rw [dget_dinsert_ne _ _ _ _ (fun h => hvw h.symm)]
          exact h2 v hv
        obtain ⟨hQ1, nw, hq, hnd, hch⟩ :=
          ih q (dinsert deg w (degGet deg w - 1)) hdeg₁ h2'
        rw [List.foldl_cons, hstep]
        refine ⟨hQ1, nw, hq, hnd, ?_⟩
        intro x
        constructor
        · intro hx
          have := (hch x).1 hx
          exact ⟨List.mem_cons_of_mem _ this.1, this.2⟩
        · rintro ⟨hx, hDx⟩
          rcases List.mem_cons.1 hx with hx | hx
          · subst hx
            have hcnt : ws.count x ≠ 0 := by
              have := hdeg₁ x
              intro hc
              rw [hc] at this
              rw [hDx] at this
              simp at this
              exact hz (by rw [this])
            exact (hch x).2 ⟨List.count_pos_iff.1 (Nat.pos_of_ne_zero hcnt), hDx⟩
          · exact (hch x).2 ⟨hx, hDx⟩

/-- `Before` survives appending on the right. -/
theorem Before_append (l l' : List String) (a b : String)
    (h : Before l a b) : Before (l ++ l') a b := by
  rcases h with ⟨l₁, l₂, hl, ha⟩
  exact ⟨l₁, l₂ ++ l', by rw [hl]; simp, ha⟩

/-- In a finite list where every member has an `R`-predecessor in the
list, some element lies on an `R`-cycle (pigeonhole on iterated
predecessors). -/
theorem cycle_of_preds (S : List String) (R : String → String → Prop)
    (v0 : String) (hv0 : v0 ∈ S)
    (h : ∀ v ∈ S, ∃ u, u ∈ S ∧ R u v) :
    ∃ z, Relation.TransGen R z z := by
  classical
  let f : String → String :=
    fun v => if hv : ∃ u, u ∈ S ∧ R u v then hv.choose else v
  have hf : ∀ v ∈ S, f v ∈ S ∧ R (f v) v := by
    intro v hv
    have hx := h v hv
    have hfv : f v = hx.choose := dif_pos hx
    rw [hfv]
    exact hx.choose_spec
  have hiter : ∀ n, f^[n] v0 ∈ S := by
    intro n
    induction n with
    | zero => simpa using hv0
    | succ n ih =>
        rw [Function.iterate_succ_apply']
        exact (hf _ ih).1
  have hchain : ∀ i d, Relation.TransGen R (f^[i + d + 1] v0) (f^[i] v0) := by
    intro i d
    induction d with
    | zero =>
        rw [show i + 0 + 1 = i + 1 by omega, Function.iterate_succ_apply']
        exact Relation.TransGen.single (hf _ (hiter i)).2
    | succ d ih =>
        rw [show i + (d + 1) + 1 = (i + d + 1) + 1 by omega,
          Function.iterate_succ_apply']
        exact Relation.TransGen.head (hf _ (hiter (i + d + 1))).2 ih
  have hmaps : ∀ n ∈ Finset.range (S.length + 1), f^[n] v0 ∈ S.toFinset := by
    intro n _
    simpa using hiter n
  have hcard : S.toFinset.card < (Finset.range (S.length + 1)).card := by
    rw [Finset.card_range]
    exact Nat.lt_succ_of_le (List.toFinset_card_le S)
  obtain ⟨i, _, j, _, hij, heq⟩ :=
    Finset.exists_ne_map_eq_of_card_lt_of_maps_to hcard hmaps
  rcases Nat.lt_or_ge i j with hlt | hge
  · have hc := hchain i (j - i - 1)
    rw [show i + (j - i - 1) + 1 = j by omega] at hc
    exact ⟨f^[j] v0, heq ▸ hc⟩
  · have hlt' : j < i := by omega
    have hc := hchain j (i - j - 1)
    rw [show j + (i - j - 1) + 1 = i by omega] at hc
    exact ⟨f^[i] v0, heq ▸ hc⟩

/-- Invariant lemma for the Kahn dequeue loop: starting from a state
satisfying the loop invariants, the loop emits a duplicate-free list that
contains every mapped node and respects every connection. -/
theorem kahnLoop_spec (conns : List NodeConnection) (nodeKeys : List String)
    (hsrc : ∀ c ∈ conns, c.from_node_id ∈ nodeKeys)
    (htgt : ∀ c ∈ conns, c.to_node_id ∈ nodeKeys)
    (hacyc : AcyclicConns conns) :
    ∀ (fuel : Nat) (q order : List String) (deg : SDict Int),
      (order ++ q).Nodup →
      (∀ k, degGet deg k = (remCount conns order k : Int)) →
      (∀ v ∈ order ++ q, remCount conns order v = 0) →
      order ⊆ nodeKeys → q ⊆ nodeKeys →
      (∀ v ∈ nodeKeys, v ∉ order → v ∉ q → remCount conns order v ≠ 0) →
      (∀ c ∈ conns, c.to_node_id ∈ order →
        Before order c.from_node_id c.to_node_id) →
      nodeKeys.length < fuel + order.length →
      (kahnLoop (adjOf conns) fuel q order deg).Nodup ∧
      (kahnLoop (adjOf conns) fuel q order deg) ⊆ nodeKeys ∧
      nodeKeys ⊆ (kahnLoop (adjOf conns) fuel q order deg) ∧
      (∀ c ∈ conns,
        Before (kahnLoop (adjOf conns) fuel q order deg)
          c.from_node_id c.to_node_id) := by
  intro fuel
  induction fuel with
  | zero =>
      intro q order deg hnd _ _ hords _ _ _ hfuel
      exfalso
      have h1 : order.Nodup := (List.nodup_append.1 hnd).1
      have h2 : order.length ≤ nodeKeys.length :=
        (List.subperm_of_subset h1 hords).length_le
      omega
  | succ fuel ih =>
      intro q order deg hnd hdeg hzero hords hqs hmiss hbefore hfuel
      cases q with
      | nil =>
          simp only [kahnLoop]
          have horder_nd : order.Nodup := by simpa using hnd
          have hcomp : nodeKeys ⊆ order := by
            intro v0 hv0k
            by_contra hv0
            have hv0S : v0 ∈ nodeKeys.filter (fun v => decide (v ∉ order)) := by
              simp [List.mem_filter, hv0k, hv0]
            have hpred : ∀ v ∈ nodeKeys.filter (fun v => decide (v ∉ order)),
                ∃ u, u ∈ nodeKeys.filter (fun v => decide (v ∉ order)) ∧
                  EdgeStep conns u v := by
              intro v hv
              have hv' := List.mem_filter.1 hv
              have hvk : v ∈ nodeKeys := hv'.1
              have hvo : v ∉ order := by simpa using hv'.2
              have hrc := hmiss v hvk hvo (by simp)
              obtain ⟨c, hc, hct, hcf⟩ := remCount_ne_zero_exists conns order v hrc
              refine ⟨c.from_node_id, ?_, ⟨c, hc, rfl, hct⟩⟩
              simp [List.mem_filter, hsrc c hc, hcf]
            obtain ⟨z, hz⟩ :=
              cycle_of_preds _ (EdgeStep conns) v0 hv0S hpred
            exact hacyc z hz
          refine ⟨horder_nd, by simpa using hords, hcomp, ?_⟩
          intro c hc
          exact hbefore c hc (hcomp (htgt c hc))
      | cons u q =>
          simp only [kahnLoop]
          have hu_no : u ∉ order := by
            have := (List.nodup_append.1 hnd).2.2
            exact fun hmem => this hmem (List.mem_cons_self _ _)
          have hnd' : (order ++ [u] ++ q).Nodup := by
            rw [List.append_assoc, List.singleton_append]
            exact hnd
          have hP1 : ∀ k, degGet deg k =
              ((remCount conns (order ++ [u]) k : Nat) : Int) +
                (adjOf conns u).count k := by
            intro k
            rw [hdeg k, remCount_split conns order u k hu_no, count_adjOf]
            omega
          have hP2 : ∀ v ∈ q, degGet deg v = 0 := by
            intro v hv
            rw [hdeg v, hzero v (by simp [hv])]
            rfl
          obtain ⟨hQ1, nw, hq', hnwnd, hch⟩ :=
            kahnFold (fun k => remCount conns (order ++ [u]) k)
              (adjOf conns u) q deg hP1 hP2
          -- facts about the freshly enqueued nodes
          have hnw_src : ∀ w ∈ nw, w ∈ adjOf conns u ∧
              remCount conns (order ++ [u]) w = 0 := fun w hw => (hch w).1 hw
          have hnw_fresh : ∀ w ∈ nw, w ∉ order ++ u :: q := by
            intro w hw hmem
            have hadj := (hnw_src w hw).1
            have hpos := remCount_pos_of_adj conns order u w hu_no hadj
            exact hpos (hzero w hmem)
          have hnw_keys : ∀ w ∈ nw, w ∈ nodeKeys := by
            intro w hw
            have hadj := (hnw_src w hw).1
            simp only [adjOf, List.mem_map, List.mem_filter,
              decide_eq_true_eq] at hadj
            rcases hadj with ⟨c, ⟨hc, -⟩, ht⟩
            exact ht ▸ htgt c hc
          -- establish the invariants for the next iteration
          have inv1 : (order ++ [u] ++ ((adjOf conns u).foldl kahnStep (q, deg)).1).Nodup := by
            rw [hq', ← List.append_assoc]
            rw [List.nodup_append]
            refine ⟨by rw [List.append_assoc, List.singleton_append]; exact hnd, hnwnd, ?_⟩
            intro w hw hw'
            exact hnw_fresh w hw'
              (by rw [List.append_assoc, List.singleton_append] at hw; exact hw)
          have inv2 : ∀ k, degGet ((adjOf conns u).foldl kahnStep (q, deg)).2 k =
              (remCount conns (order ++ [u]) k : Int) := hQ1
          have inv3 : ∀ v ∈ order ++ [u] ++ ((adjOf conns u).foldl kahnStep (q, deg)).1,
              remCount conns (order ++ [u]) v = 0 := by
            intro v hv
            rw [hq', ← List.append_assoc] at hv
            rcases List.mem_append.1 hv with hv | hv
            · have hv0 : v ∈ order ++ u :: q := by
                rw [List.append_assoc, List.singleton_append] at hv
                exact hv
              have := hzero v hv0
              have hle := remCount_mono conns order [u] v
              omega
            · exact (hnw_src v hv).2
          have inv4 : (order ++ [u]) ⊆ nodeKeys := by
            intro x hx
            rcases List.mem_append.1 hx with hx | hx
            · exact hords hx
            · rw [List.mem_singleton.1 hx]
              exact hqs (List.mem_cons_self _ _)
          have inv5 : ((adjOf conns u).foldl kahnStep (q, deg)).1 ⊆ nodeKeys := by
            rw [hq']
            intro x hx
            rcases List.mem_append.1 hx with hx | hx
            · exact hqs (List.mem_cons_of_mem _ hx)
            · exact hnw_keys x hx
          have inv6 : ∀ v ∈ nodeKeys, v ∉ order ++ [u] →
              v ∉ ((adjOf conns u).foldl kahnStep (q, deg)).1 →
              remCount conns (order ++ [u]) v ≠ 0 := by
            intro v hvk hvo hvq hvz
            rw [hq'] at hvq
            have hvo1 : v ∉ order := fun hm => hvo (List.mem_append.2 (Or.inl hm))
            have hvu : v ≠ u := fun he => hvo (by simp [he])
            have hvq1 : v ∉ q := fun hm => hvq (List.mem_append.2 (Or.inl hm))
            have hv_nw : v ∉ nw := fun hm => hvq (List.mem_append.2 (Or.inr hm))
            have hold := hmiss v hvk hvo1 (by simp [hvu, hvq1])
            have hsplit := remCount_split conns order u v hu_no
            have hcnt : (adjOf conns u).count v ≠ 0 := by
              rw [count_adjOf]
              omega
            have hv_adj : v ∈ adjOf conns u :=
              List.count_pos_iff.1 (Nat.pos_of_ne_zero hcnt)
            exact hv_nw ((hch v).2 ⟨hv_adj, hvz⟩)
          have inv7 : ∀ c ∈ conns, c.to_node_id ∈ order ++ [u] →
              Before (order ++ [u]) c.from_node_id c.to_node_id := by
            intro c hc hct
            rcases List.mem_append.1 hct with hct | hct
            · exact Before_append order [u] _ _ (hbefore c hc hct)
            · have hctu : c.to_node_id = u := List.mem_singleton.1 hct
              have hz := hzero u (by simp)
              have hfrom : c.from_node_id ∈ order :=
                remCount_zero_sources conns order u hz c hc hctu
              exact ⟨order, [], by rw [hctu], hfrom⟩
          have hfuel' : nodeKeys.length < fuel + (order ++ [u]).length := by
            simp only [List.length_append, List.length_singleton]
            omega
          exact ih ((adjOf conns u).foldl kahnStep (q, deg)).1 (order ++ [u])
            ((adjOf conns u).foldl kahnStep (q, deg)).2
            inv1 inv2 inv3 inv4 inv5 inv6 inv7 hfuel'

theorem degGet_setZero (ks : List String) :
    ∀ (d : SDict Int), (∀ k, degGet d k = 0) →
      ∀ k, degGet (ks.foldl (fun d k => dinsert d k 0) d) k = 0 := by
  induction ks with
  | nil => intro d h k; exact h k
  | cons a ks ih =>
      intro d h k
      rw [List.foldl_cons]
      refine ih _ ?_ k
      intro k'
      by_cases hk : a = k'
      · subst hk
        unfold degGet
        rw [dget_dinsert_self]
        rfl
      · unfold degGet
        rw [dget_dinsert_ne _ _ _ _ hk]
        exact h k'

theorem degGet_incr (conns : List NodeConnection) :
    ∀ (d : SDict Int) (k : String),
      degGet (conns.foldl
          (fun d c => dinsert d c.to_node_id (degGet d c.to_node_id + 1)) d) k =
        degGet d k + conns.countP (fun c => decide (c.to_node_id = k)) := by
  induction conns with
  | nil => intro d k; simp
  | cons c conns ih =>
      intro d k
      rw [List.foldl_cons, ih, List.countP_cons]
      by_cases hk : c.to_node_id = k
      · have h1 : degGet (dinsert d c.to_node_id (degGet d c.to_node_id + 1)) k =
            degGet d k + 1 := by
          unfold degGet
          rw [hk, dget_dinsert_self]
          rfl
        rw [h1]
        simp [hk]
        ring
      · have h1 : degGet (dinsert d c.to_node_id (degGet d c.to_node_id + 1)) k =
            degGet d k := by
          unfold degGet
          rw [dget_dinsert_ne _ _ _ _ hk]
        rw [h1]
        simp [hk]

theorem initInDeg_spec (nodeKeys : List String) (conns : List NodeConnection)
    (k : String) :
    degGet (initInDeg nodeKeys conns) k =
      conns.countP (fun c => decide (c.to_node_id = k)) := by
  unfold initInDeg
  rw [degGet_incr, degGet_setZero nodeKeys [] (fun _ => rfl) k]
  ring

theorem remCount_nil_order (conns : List NodeConnection) (k : String) :
    remCount conns [] k = conns.countP (fun c => decide (c.to_node_id = k)) := by
  unfold remCount
  induction conns with
  | nil => rfl
  | cons c conns ih =>
      rw [List.countP_cons, List.countP_cons, ih]
      simp

/-- C1: on a consistent, acyclic graph with a well-formed node map,
`get_topological_order()` succeeds with a permutation of the node ids in
which every connection's source precedes its target. -/
theorem get_topological_order_correct {Val : Type} (g : StrategyGraph Val)
    (hnd : KeysNodup g) (hcons : Consistent g) (hacyc : Acyclic g) :
    ∃ order, get_topological_order g = .ok order ∧
      order.Perm (keys g) ∧
      ∀ c ∈ g.connections, Before order c.from_node_id c.to_node_id := by
  have hsrc : ∀ c ∈ g.connections, c.from_node_id ∈ keys g :=
    fun c hc => (hcons c hc).1
  have htgt : ∀ c ∈ g.connections, c.to_node_id ∈ keys g :=
    fun c hc => (hcons c hc).2
  have hI2 : ∀ k, degGet (initInDeg (keys g) g.connections) k =
      (remCount g.connections [] k : Int) := by
    intro k
    rw [initInDeg_spec, remCount_nil_order]
  have hI3 : ∀ v ∈ ([] : List String) ++
      (keys g).filter (fun k => degGet (initInDeg (keys g) g.connections) k == 0),
      remCount g.connections [] v = 0 := by
    intro v hv
    simp only [List.nil_append, List.mem_filter] at hv
    have := hv.2
    rw [beq_iff_eq, hI2 v] at this
    exact_mod_cast this
  have hI5 : ∀ v ∈ keys g, v ∉ ([] : List String) →
      v ∉ (keys g).filter (fun k => degGet (initInDeg (keys g) g.connections) k == 0) →
      remCount g.connections [] v ≠ 0 := by
    intro v hvk _ hvq hz
    refine hvq (List.mem_filter.2 ⟨hvk, ?_⟩)
    rw [beq_iff_eq, hI2 v, hz]
    rfl
  have hkeys_len : (keys g).length = g.nodes.length := by
    unfold keys dkeys
    exact List.length_map _ _
  obtain ⟨hndO, hsubO, hsupO, hbefO⟩ :=
    kahnLoop_spec g.connections (keys g) hsrc htgt hacyc
      (g.nodes.length + g.connections.length + 1)
      ((keys g).filter (fun k => degGet (initInDeg (keys g) g.connections) k == 0))
      [] (initInDeg (keys g) g.connections)
      (by simpa using List.Nodup.filter _ hnd)
      hI2 hI3 (by simp) (fun x hx => (List.mem_filter.1 hx).1) hI5
      (by intro c _ hmem; simp at hmem)
      (by simp [hkeys_len]; omega)
  have hperm :
      (kahnLoop (adjOf g.connections) (g.nodes.length + g.connections.length + 1)
        ((keys g).filter (fun k => degGet (initInDeg (keys g) g.connections) k == 0))
        [] (initInDeg (keys g) g.connections)).Perm (keys g) :=
    (List.subperm_of_subset hndO hsubO).antisymm
      (List.subperm_of_subset hnd hsupO)
  refine ⟨_, ?_, hperm, hbefO⟩
  simp only [get_topological_order]
  rw [if_pos]
  rw [hperm.length_eq, hkeys_len]

/-- A rank function increasing along every connection certifies
acyclicity. -/
theorem acyclicConns_of_rank (conns : List NodeConnection) (f : String → Nat)
    (h : ∀ c ∈ conns, f c.from_node_id < f c.to_node_id) :
    AcyclicConns conns := by
  intro u hcyc
  have hmono : ∀ a b, Relation.TransGen (EdgeStep conns) a b → f a < f b := by
    intro a b hab
    induction hab with
    | single hs =>
        rcases hs with ⟨c, hc, hf, ht⟩
        have := h c hc
        rw [hf, ht] at this
        exact this
    | tail _ hbc ih =>
        rcases hbc with ⟨c, hc, hf, ht⟩
        have := h c hc
        rw [hf, ht] at this
        exact lt_trans ih this
  exact lt_irrefl _ (hmono u u hcyc)

/-- Concrete two-node graph with one connection A→B. -/
def gAB2 : StrategyGraph Nat :=
  { graph_id := "g1", name := "demo",
    nodes := [("A", mkNode Nat "A" [] [⟨"x", "any"⟩]),
              ("B", mkNode Nat "B" [⟨"y", "any", true⟩] [])],
    connections := [⟨"A", 0, "B", 0⟩] }

theorem gAB2_acyclic : Acyclic gAB2 := by
  refine acyclicConns_of_rank _ (fun s => if s = "B" then 1 else 0) ?_
  intro c hc
  have hconns : gAB2.connections = [⟨"A", 0, "B", 0⟩] := rfl
  rw [hconns] at hc
  rw [List.mem_singleton.1 hc]
  decide

/-- Witness for C1 at the concrete graph `gAB2`. -/
theorem get_topological_order_correct_witness :
    ∃ order, get_topological_order gAB2 = .ok order ∧
      order.Perm (keys gAB2) ∧
      ∀ c ∈ gAB2.connections, Before order c.from_node_id c.to_node_id :=
  get_topological_order_correct gAB2
    (by unfold KeysNodup; decide)
    (by unfold Consistent; decide)
    gAB2_acyclic

/-- The Kahn loop never emits a node twice, with no well-formedness
assumptions beyond the loop invariants of the starting state. -/
theorem kahnLoop_nodup (conns : List NodeConnection) :
    ∀ (fuel : Nat) (q order : List String) (deg : SDict Int),
      (order ++ q).Nodup →
      (∀ k, degGet deg k = (remCount conns order k : Int)) →
      (∀ v ∈ order ++ q, remCount conns order v = 0) →
      (kahnLoop (adjOf conns) fuel q order deg).Nodup := by
  intro fuel
  induction fuel with
  | zero =>
      intro q order deg hnd _ _
      exact (List.nodup_append.1 hnd).1
  | succ fuel ih =>
      intro q order deg hnd hdeg hzero
      cases q with
      | nil =>
          simp only [kahnLoop]
          simpa using hnd
      | cons u q =>
          simp only [kahnLoop]
          have hu_no : u ∉ order := by
            have := (List.nodup_append.1 hnd).2.2
            exact fun hmem => this hmem (List.mem_cons_self _ _)
          have hP1 : ∀ k, degGet deg k =
              ((remCount conns (order ++ [u]) k : Nat) : Int) +
                (adjOf conns u).count k := by
            intro k
            rw [hdeg k, remCount_split conns order u k hu_no, count_adjOf]
            omega
          have hP2 : ∀ v ∈ q, degGet deg v = 0 := by
            intro v hv
            rw [hdeg v, hzero v (by simp [hv])]
            rfl
          obtain ⟨hQ1, nw, hq', hnwnd, hch⟩ :=
            kahnFold (fun k => remCount conns (order ++ [u]) k)
              (adjOf conns u) q deg hP1 hP2
          have hnw_src : ∀ w ∈ nw, w ∈ adjOf conns u ∧
              remCount conns (order ++ [u]) w = 0 := fun w hw => (hch w).1 hw
          have hnw_fresh : ∀ w ∈ nw, w ∉ order ++ u :: q := by
            intro w hw hmem
            have hadj := (hnw_src w hw).1
            have hpos := remCount_pos_of_adj conns order u w hu_no hadj
            exact hpos (hzero w hmem)
          have inv1 : (order ++ [u] ++ ((adjOf conns u).foldl kahnStep (q, deg)).1).Nodup := by
            rw [hq', ← List.append_assoc]
            rw [List.nodup_append]
            refine ⟨by rw [List.append_assoc, List.singleton_append]; exact hnd, hnwnd, ?_⟩
            intro w hw hw'
            exact hnw_fresh w hw'
              (by rw [List.append_assoc, List.singleton_append] at hw; exact hw)
          have inv2 : ∀ k, degGet ((adjOf conns u).foldl kahnStep (q, deg)).2 k =
              (remCount conns (order ++ [u]) k : Int) := hQ1
          have inv3 : ∀ v ∈ order ++ [u] ++ ((adjOf conns u).foldl kahnStep (q, deg)).1,
              remCount conns (order ++ [u]) v = 0 := by
            intro v hv
            rw [hq', ← List.append_assoc] at hv
            rcases List.mem_append.1 hv with hv | hv
            · have hv0 : v ∈ order ++ u :: q := by
                rw [List.append_assoc, List.singleton_append] at hv
                exact hv
              have := hzero v hv0
              have hle := remCount_mono conns order [u] v
              omega
            · exact (hnw_src v hv).2
          exact ih ((adjOf conns u).foldl kahnStep (q, deg)).1 (order ++ [u])
            ((adjOf conns u).foldl kahnStep (q, deg)).2 inv1 inv2 inv3

/-- Whatever `get_topological_order` returns successfully is
duplicate-free (needs only a well-formed node map). -/
theorem topo_ok_nodup {Val : Type} (g : StrategyGraph Val)
    (hnd : KeysNodup g) (order : List String)
    (h : get_topological_order g = .ok order) : order.Nodup := by
  simp only [get_topological_order] at h
  by_cases hlen :
      (kahnLoop (adjOf g.connections) (g.nodes.length + g.connections.length + 1)
        ((keys g).filter (fun k => degGet (initInDeg (keys g) g.connections) k == 0))
        [] (initInDeg (keys g) g.connections)).length = g.nodes.length
  · rw [if_pos hlen] at h
    injection h with horder
    subst horder
    refine kahnLoop_nodup g.connections _ _ [] _ ?_ ?_ ?_
    · simpa using List.Nodup.filter _ hnd
    · intro k
      rw [initInDeg_spec, remCount_nil_order]
    · intro v hv
      simp only [List.nil_append, List.mem_filter] at hv
      have := hv.2
      rw [beq_iff_eq, initInDeg_spec] at this
      rw [remCount_nil_order]
      exact_mod_cast this
  · rw [if_neg hlen] at h
    exact absurd h (by simp)

/-! ### GraphRuntime -/

/-- `str()` of a Python `KeyError` carrying key `k`. -/
def keyErr (k : String) : String := "'" ++ k ++ "'"

/-- Body of the connection scan in `_prepare_node_inputs`, for one
connection: skip it unless it targets this node, look up the source node
(a missing map entry raises `KeyError`), bounds-check the output index,
skip silently when the named output was not recorded, bounds-check the
input index, then bind the value under the declared input name. -/
def prepStep {Val : Type} (g : StrategyGraph Val) (node_id : String)
    (node_outputs : SDict (SDict Val)) (inputs : SDict Val)
    (conn : NodeConnection) : Except String (SDict Val) :=
  if conn.to_node_id = node_id then
    let source_outputs := (dget node_outputs conn.from_node_id).getD []
    match dget g.nodes conn.from_node_id with
    | none => .error (keyErr conn.from_node_id)
    | some source_node =>
      if h : conn.from_output_index < source_node.outputs.length then
        let output_name := (source_node.outputs.get ⟨conn.from_output_index, h⟩).name
        match dget source_outputs output_name with
        | none => .ok inputs
        | some v =>
          match dget g.nodes node_id with
          | none => .error (keyErr node_id)
          | some target_node =>
            if h2 : conn.to_input_index < target_node.inputs.length then
              .ok (dinsert inputs
                (target_node.inputs.get ⟨conn.to_input_index, h2⟩).name v)
            else .ok inputs
      else .ok inputs
  else .ok inputs

/-- The connection scan of `_prepare_node_inputs` over a connection list. -/
def prepLoop {Val : Type} (g : StrategyGraph Val) (node_id : String)
    (node_outputs : SDict (SDict Val)) :
    List NodeConnection → SDict Val → Except String (SDict Val)
  | [], inputs => .ok inputs
  | conn :: conns, inputs =>
      match prepStep g node_id node_outputs inputs conn with
      | .error e => .error e
      | .ok inputs' => prepLoop g node_id node_outputs conns inputs'

/-- `_prepare_node_inputs`: resolve a node's inputs from upstream
outputs; a node with no inbound connection additionally receives the
initial inputs. -/
def prepare_node_inputs {Val : Type} (g : StrategyGraph Val) (node_id : String)
    (node_outputs : SDict (SDict Val)) (initial_inputs : SDict Val) :
    Except String (SDict Val) :=
  match prepLoop g node_id node_outputs g.connections [] with
  | .error e => .error e
  | .ok inputs =>
      if g.connections.any (fun conn => conn.to_node_id == node_id) then
        .ok inputs
      else .ok (dupdate inputs initial_inputs)

/-- `_get_terminal_nodes`: mapped nodes with no outgoing connection. -/
def get_terminal_nodes {Val : Type} (g : StrategyGraph Val) : List String :=
  (keys g).filter
    (fun node_id => !(g.connections.any (fun c => c.from_node_id == node_id)))

/-- The `NodeExecutionContext` that `execute` builds for one node. -/
def nodeContext {Val : Type} (g : StrategyGraph Val)
    (execution_id node_id : String) (inputs shared : SDict Val) :
    NodeExecutionContext Val :=
  { node_id := node_id, graph_id := g.graph_id, execution_id := execution_id,
    inputs := inputs, shared_state := shared }

/-- The per-node loop of `execute` over the topological order.  An
`.error` carries the result object as already mutated plus the exception
message; `.ok` is reaching the end of the loop or the fail-fast `break`. -/
def execLoop {Val : Type} (g : StrategyGraph Val) (eid : String)
    (init shared : SDict Val) :
    List String → GraphExecutionResult Val → SDict (SDict Val) →
    Except (GraphExecutionResult Val × String)
      (GraphExecutionResult Val × SDict (SDict Val))
  | [], result, outs => .ok (result, outs)
  | node_id :: rest, result, outs =>
      match dget g.nodes node_id with
      | none => .error (result, keyErr node_id)
      | some node =>
        match prepare_node_inputs g node_id outs init with
        | .error e => .error (result, e)
        | .ok node_inputs =>
          match node.run (nodeContext g eid node_id node_inputs shared) with
          | .error e => .error (result, e)
          | .ok nr =>
            let result' : GraphExecutionResult Val :=
              { result with
                node_results := dinsert result.node_results node_id nr }
            if nr.status = NodeStatus.FAILED then
              .ok ({ result' with
                     status := .FAILED
                     failed_node_id := some node_id
                     error_message := nr.error_message }, outs)
            else
              execLoop g eid init shared rest result'
                (dinsert outs node_id nr.outputs)

/-- The `try` block of `execute`: order the graph, run the loop, then on
a non-FAILED result mark completion and collect terminal outputs. -/
def runTry {Val : Type} (g : StrategyGraph Val)
    (base : GraphExecutionResult Val) (eid : String) (init shared : SDict Val) :
    Except (GraphExecutionResult Val × String) (GraphExecutionResult Val) :=
  match get_topological_order g with
  | .error e => .error (base, e)
  | .ok order =>
    match execLoop g eid init shared order base [] with
    | .error (r, e) => .error (r, e)
    | .ok (result, node_outputs) =>
      if result.status ≠ GraphExecutionStatus.FAILED then
        let result' : GraphExecutionResult Val :=
          { result with status := .COMPLETED }
        .ok { result' with
              final_outputs := (get_terminal_nodes g).foldl
                (fun fo node_id =>
                  match dget node_outputs node_id with
                  | some outs => dinsert fo node_id outs
                  | none => fo) result'.final_outputs }
      else .ok result

/-- `GraphRuntime.execute`: allocate the timestamp-derived execution id,
run the `try` block, normalise any exception into a FAILED result, then
in `finally` stamp completion time and duration and append to the
execution history.  Returns (result, new history). -/
def execute {Val : Type} (g : StrategyGraph Val)
    (history : List (GraphExecutionResult Val)) (tStart tEnd : Nat)
    (initial_inputs shared_state : SDict Val) :
    GraphExecutionResult Val × List (GraphExecutionResult Val) :=
  let execution_id := "exec_" ++ toString tStart
  let base : GraphExecutionResult Val :=
    { execution_id := execution_id, graph_id := g.graph_id,
      status := .RUNNING, started_at := tStart }
  let result :=
    match runTry g base execution_id initial_inputs shared_state with
    | .ok r => r
    | .error (r, msg) => { r with status := .FAILED, error_message := some msg }
  let result' : GraphExecutionResult Val :=
    { result with
      completed_at := some tEnd
      execution_time_ms := some (tEnd - tStart) }
  (result', history ++ [result'])

/-- The dictionary returned by `get_statistics()` (the empty-history
branch returns fewer keys; those are `none` here). -/
structure GraphStats where
  total_executions : Nat
  successful_executions : Option Nat
  success_rate : ℚ
  avg_execution_time_ms : ℚ
  total_opportunities : Option Nat
deriving DecidableEq, Repr

/-- `get_statistics()` over the execution history (`/` is exact `ℚ`
division, standing in for Python float division). -/
def get_statistics {Val : Type}
    (history : List (GraphExecutionResult Val)) : GraphStats :=
  if history.isEmpty then
    { total_executions := 0, successful_executions := none,
      success_rate := 0, avg_execution_time_ms := 0,
      total_opportunities := none }
  else
    { total_executions := history.length,
      successful_executions := some
        (history.filter (fun r => r.status == GraphExecutionStatus.COMPLETED)).length,
      success_rate :=
        ((history.filter (fun r => r.status == GraphExecutionStatus.COMPLETED)).length : ℚ) /
          (history.length : ℚ),
      avg_execution_time_ms :=
        ((history.map (fun r => ((r.execution_time_ms.getD 0 : Nat) : ℚ))).sum) /
          (history.length : ℚ),
      total_opportunities := some
        ((history.map (fun r => r.opportunities.length)).sum) }

/-- C9: statistics are 0/0.0 on an empty history (no division by zero),
and after `M` recorded executions with `S` COMPLETED the success rate is
exactly `S / M`. -/
theorem get_statistics_spec {Val : Type}
    (history : List (GraphExecutionResult Val)) (M S : Nat)
    (hM : history.length = M)
    (hS : (history.filter
      (fun r => r.status == GraphExecutionStatus.COMPLETED)).length = S) :
    ((get_statistics ([] : List (GraphExecutionResult Val))).total_executions = 0 ∧
     (get_statistics ([] : List (GraphExecutionResult Val))).success_rate = 0) ∧
    (0 < M →
      (get_statistics history).total_executions = M ∧
      (get_statistics history).success_rate = (S : ℚ) / (M : ℚ)) := by
  refine ⟨⟨rfl, rfl⟩, ?_⟩
  intro hpos
  have hne : ¬ history.isEmpty := by
    cases history with
    | nil => simp at hM; omega
    | cons a l => simp
  unfold get_statistics
  rw [if_neg hne]
  exact ⟨hM, by rw [hM, hS]⟩

/-- Sample execution results for exercising the statistics. -/
def resOk : GraphExecutionResult Nat :=
  { execution_id := "e1", graph_id := "g", status := .COMPLETED, started_at := 0 }

/-- A FAILED sample execution result. -/
def resBad : GraphExecutionResult Nat :=
  { execution_id := "e2", graph_id := "g", status := .FAILED, started_at := 0 }

/-- Witness for C9: two executions, one COMPLETED, rate exactly 1/2. -/
theorem get_statistics_spec_witness :
    (get_statistics ([] : List (GraphExecutionResult Nat))).total_executions = 0 ∧
    (get_statistics ([] : List (GraphExecutionResult Nat))).success_rate = 0 ∧
    (get_statistics [resOk, resBad]).total_executions = 2 ∧
    (get_statistics [resOk, resBad]).success_rate = (1 : ℚ) / 2 := by
  have h := get_statistics_spec [resOk, resBad] 2 1 (by decide) (by decide)
  exact ⟨h.1.1, h.1.2, (h.2 (by decide)).1, (h.2 (by decide)).2⟩

/-- C7 is violated by the code: the execution id is derived solely from
the `utcnow` timestamp, so two distinct `execute` calls (here: on
different graphs with different histories and inputs) whose timestamp
readings coincide receive the same id. -/
theorem execution_id_collision :
    (execute gAB [] 100 101 [] []).1.execution_id =
      (execute gAB2 [] 100 200 [] [(("s" : String), (5 : Nat))]).1.execution_id ∧
    (execute gAB [] 100 101 [] []).1.execution_id = "exec_100" := by
  constructor
  · rfl
  · rfl

/-- C5: `execute` always hands back a completed result object: the result
is appended to the history and stamped with a completion timestamp and a
duration, and if the `try` block raised, the exception is normalised into
a FAILED result that keeps the node results recorded before the raise. -/
theorem execute_normalises {Val : Type} (g : StrategyGraph Val)
    (history : List (GraphExecutionResult Val)) (tStart tEnd : Nat)
    (init shared : SDict Val) :
    (execute g history tStart tEnd init shared).2 =
      history ++ [(execute g history tStart tEnd init shared).1] ∧
    (execute g history tStart tEnd init shared).1.completed_at = some tEnd ∧
    (execute g history tStart tEnd init shared).1.execution_time_ms =
      some (tEnd - tStart) ∧
    (∀ r msg,
      runTry g
          { execution_id := "exec_" ++ toString tStart, graph_id := g.graph_id,
            status := .RUNNING, started_at := tStart }
          ("exec_" ++ toString tStart) init shared = .error (r, msg) →
      (execute g history tStart tEnd init shared).1.status = .FAILED ∧
      (execute g history tStart tEnd init shared).1.error_message = some msg ∧
      (execute g history tStart tEnd init shared).1.node_results =
        r.node_results) := by
  refine ⟨rfl, rfl, rfl, ?_⟩
  intro r msg herr
  unfold execute
  simp only [herr]
  exact ⟨trivial, trivial, trivial⟩

/-- A graph whose single connection is a self-loop (constructed directly,
bypassing `add_connection`), so `get_topological_order` raises. -/
def gLoop : StrategyGraph Nat :=
  { graph_id := "gc", name := "cyc",
    nodes := [("A", mkNode Nat "A" [] [])],
    connections := [⟨"A", 0, "A", 0⟩] }

/-- Witness for C5 at the cyclic graph `gLoop`: the cycle error from
`get_topological_order` is normalised into a FAILED result that is still
appended and stamped. -/
theorem execute_normalises_witness :
    (execute gLoop [] 7 9 [] []).2 = [] ++ [(execute gLoop [] 7 9 [] []).1] ∧
    (execute gLoop [] 7 9 [] []).1.completed_at = some 9 ∧
    (execute gLoop [] 7 9 [] []).1.execution_time_ms = some 2 ∧
    (execute gLoop [] 7 9 [] []).1.status = .FAILED ∧
    (execute gLoop [] 7 9 [] []).1.error_message =
      some "Graph contains a cycle" := by
  have h := execute_normalises gLoop [] 7 9 [] []
  have herr := h.2.2.2
    { execution_id := "exec_" ++ toString 7, graph_id := gLoop.graph_id,
      status := .RUNNING, started_at := 7 }
    "Graph contains a cycle" rfl
  exact ⟨h.1, h.2.1, h.2.2.1, herr.1, herr.2.1⟩

/-! ### Delivery view of `_prepare_node_inputs` -/

/-- The single binding (input name, value) a connection contributes to
`node_id`'s inputs, if any: it must target the node, its output index
must be in bounds, the named output must be recorded upstream, and its
input index must be in bounds. -/
def connDelivery {Val : Type} (g : StrategyGraph Val) (node_id : String)
    (outs : SDict (SDict Val)) (c : NodeConnection) : Option (String × Val) :=
  if c.to_node_id = node_id then
    match dget g.nodes c.from_node_id, dget g.nodes node_id with
    | some src, some tgt =>
      if h : c.from_output_index < src.outputs.length then
        match dget ((dget outs c.from_node_id).getD [])
            (src.outputs.get ⟨c.from_output_index, h⟩).name with
        | some v =>
            if h2 : c.to_input_index < tgt.inputs.length then
              some ((tgt.inputs.get ⟨c.to_input_index, h2⟩).name, v)
            else none
        | none => none
      else none
    | _, _ => none
  else none

/-- Fold one optional delivery into the inputs map. -/
def applyDelivery {Val : Type} (inputs : SDict Val) :
    Option (String × Val) → SDict Val
  | some p => dinsert inputs p.1 p.2
  | none => inputs

theorem prepStep_eq_delivery {Val : Type} (g : StrategyGraph Val)
    (node_id : String) (outs : SDict (SDict Val)) (inputs : SDict Val)
    (c : NodeConnection)
    (hsrc : c.to_node_id = node_id → c.from_node_id ∈ keys g)
    (htgt : node_id ∈ keys g) :
    prepStep g node_id outs inputs c =
      .ok (applyDelivery inputs (connDelivery g node_id outs c)) := by
  unfold prepStep connDelivery
  by_cases hto : c.to_node_id = node_id
  · obtain ⟨src, hsrcv⟩ :=
      Option.isSome_iff_exists.1 (dget_isSome_of_mem_keys _ _ (hsrc hto))
    obtain ⟨tgt, htgtv⟩ :=
      Option.isSome_iff_exists.1 (dget_isSome_of_mem_keys _ _ htgt)
    simp only [if_pos hto, hsrcv, htgtv]
    by_cases hidx : c.from_output_index < src.outputs.length
    · simp only [dif_pos hidx]
      cases hout : dget ((dget outs c.from_node_id).getD [])
          (src.outputs.get ⟨c.from_output_index, hidx⟩).name with
      | none => rfl
      | some v =>
          by_cases hidx2 : c.to_input_index < tgt.inputs.length
          · simp only [dif_pos hidx2]
            rfl
          · simp only [dif_neg hidx2]
            rfl
    · simp only [dif_neg hidx]
      rfl
  · simp only [if_neg hto]
    rfl

theorem prepLoop_eq_deliveries {Val : Type} (g : StrategyGraph Val)
    (node_id : String) (outs : SDict (SDict Val)) (htgt : node_id ∈ keys g) :
    ∀ (conns : List NodeConnection) (inputs : SDict Val),
      (∀ c ∈ conns, c.to_node_id = node_id → c.from_node_id ∈ keys g) →
      prepLoop g node_id outs conns inputs =
        .ok ((conns.filterMap (connDelivery g node_id outs)).foldl
          (fun inp p => dinsert inp p.1 p.2) inputs) := by
  intro conns
  induction conns with
  | nil => intro inputs _; rfl
  | cons c conns ih =>
      intro inputs hsrc
      rw [List.filterMap_cons]
      have hstep := prepStep_eq_delivery g node_id outs inputs c
        (hsrc c (List.mem_cons_self _ _)) htgt
      cases hdel : connDelivery g node_id outs c with
      | none =>
          rw [hdel] at hstep
          simp only [prepLoop, hstep]
          exact ih inputs (fun d hd => hsrc d (List.mem_cons_of_mem _ hd))
      | some p =>
          rw [hdel] at hstep
          simp only [prepLoop, hstep, List.foldl_cons]
          exact ih (dinsert inputs p.1 p.2)
            (fun d hd => hsrc d (List.mem_cons_of_mem _ hd))

/-- Looking up a key after folding a list of insertions: the last
insertion under that key wins; with none, the original map answers. -/
theorem dget_foldl_dinsert {Val : Type} :
    ∀ (ps : List (String × Val)) (inputs : SDict Val) (k : String),
      dget (ps.foldl (fun inp p => dinsert inp p.1 p.2) inputs) k =
        (match ps.reverse.find? (fun p => p.1 == k) with
         | some p => some p.2
         | none => dget inputs k) := by
  intro ps
  induction ps with
  | nil => intro inputs k; rfl
  | cons p ps ih =>
      intro inputs k
      rw [List.foldl_cons, ih, List.reverse_cons, List.find?_append]
      cases hfind : ps.reverse.find? (fun q => q.1 == k) with
      | some q => simp [hfind]
      | none =>
          simp only [hfind, Option.none_orElse]
          by_cases hk : p.1 = k
          · subst hk
            rw [List.find?_cons_of_pos _ (by simp)]
            simp [dget_dinsert_self]
          · rw [List.find?_cons_of_neg _ (by simp [hk])]
            simp [dget_dinsert_ne inputs p.1 k p.2 hk]

/-- On a well-formed target, `_prepare_node_inputs` reduces to folding
the connection deliveries, plus the initial inputs for source nodes. -/
theorem prepare_node_inputs_eq {Val : Type} (g : StrategyGraph Val)
    (node_id : String) (outs : SDict (SDict Val)) (init : SDict Val)
    (htgt : node_id ∈ keys g)
    (hsrc : ∀ c ∈ g.connections, c.to_node_id = node_id →
      c.from_node_id ∈ keys g) :
    prepare_node_inputs g node_id outs init = .ok
      (if g.connections.any (fun conn => conn.to_node_id == node_id) then
        (g.connections.filterMap (connDelivery g node_id outs)).foldl
          (fun inp p => dinsert inp p.1 p.2) []
      else
        dupdate ((g.connections.filterMap (connDelivery g node_id outs)).foldl
          (fun inp p => dinsert inp p.1 p.2) []) init) := by
  unfold prepare_node_inputs
  rw [prepLoop_eq_deliveries g node_id outs htgt g.connections [] hsrc]
  cases hany : g.connections.any (fun conn => conn.to_node_id == node_id) with
  | true => simp [hany]
  | false => simp [hany]

/-- C8: on a consistent graph, input resolution always succeeds, and a
connection that cannot deliver — because it misses the recorded upstream
outputs or because either of its indices is out of bounds — contributes
no binding and is skipped rather than failing. -/
theorem prepare_inputs_total_and_tolerant {Val : Type} (g : StrategyGraph Val)
    (node_id : String) (outs : SDict (SDict Val)) (init : SDict Val)
    (hcons : Consistent g) (hmem : node_id ∈ keys g) :
    (∃ d, prepare_node_inputs g node_id outs init = .ok d) ∧
    (∀ c ∈ g.connections, ∀ inputs, connDelivery g node_id outs c = none →
        prepStep g node_id outs inputs c = .ok inputs) ∧
    (∀ c src, dget g.nodes c.from_node_id = some src →
        src.outputs.length ≤ c.from_output_index →
        connDelivery g node_id outs c = none) ∧
    (∀ c src (h : c.from_output_index < src.outputs.length),
        dget g.nodes c.from_node_id = some src →
        dget ((dget outs c.from_node_id).getD [])
          (src.outputs.get ⟨c.from_output_index, h⟩).name = none →
        connDelivery g node_id outs c = none) ∧
    (∀ c tgt, dget g.nodes node_id = some tgt →
        tgt.inputs.length ≤ c.to_input_index →
        connDelivery g node_id outs c = none) := by
  refine ⟨?_, ?_, ?_, ?_, ?_⟩
  · exact ⟨_, prepare_node_inputs_eq g node_id outs init hmem
      (fun c hc _ => (hcons c hc).1)⟩
  · intro c hc inputs hdel
    rw [prepStep_eq_delivery g node_id outs inputs c
      (fun _ => (hcons c hc).1) hmem, hdel]
    rfl
  · intro c src hsrcv hle
    unfold connDelivery
    by_cases hto : c.to_node_id = node_id
    · cases htgt : dget g.nodes node_id with
      | none => simp [if_pos hto, hsrcv, htgt]
      | some tgt =>
          simp only [if_pos hto, hsrcv, htgt]
          rw [dif_neg (by omega)]
    · simp [if_neg hto]
  · intro c src h hsrcv hnone
    unfold connDelivery
    by_cases hto : c.to_node_id = node_id
    · cases htgt : dget g.nodes node_id with
      | none => simp [if_pos hto, hsrcv, htgt]
      | some tgt =>
          simp only [if_pos hto, hsrcv, htgt]
          rw [dif_pos h, hnone]
    · simp [if_neg hto]
  · intro c tgt htgtv hle
    unfold connDelivery
    by_cases hto : c.to_node_id = node_id
    · cases hsrcv : dget g.nodes c.from_node_id with
      | none => simp [if_pos hto, hsrcv, htgtv]
      | some src =>
          simp only [if_pos hto, hsrcv, htgtv]
          by_cases hidx : c.from_output_index < src.outputs.length
          · rw [dif_pos hidx]
            cases dget ((dget outs c.from_node_id).getD [])
                (src.outputs.get ⟨c.from_output_index, hidx⟩).name with
            | none => rfl
            | some v =>
                simp [show ¬ c.to_input_index < tgt.inputs.length from by omega]
          · rw [dif_neg hidx]
    · simp [if_neg hto]

/-- C10: when several connections deliver to the same declared input
name, the one appearing latest in the connection list determines the
resolved value. -/
theorem last_connection_wins {Val : Type} (g : StrategyGraph Val)
    (node_id : String) (outs : SDict (SDict Val)) (init : SDict Val)
    (k : String) (p : String × Val)
    (hcons : Consistent g) (hmem : node_id ∈ keys g)
    (hin : g.connections.any (fun c => c.to_node_id == node_id))
    (hlast : ((g.connections.filterMap (connDelivery g node_id outs)).reverse.find?
        (fun q => q.1 == k)) = some p) :
    ∃ d, prepare_node_inputs g node_id outs init = .ok d ∧
      dget d k = some p.2 := by
  rw [prepare_node_inputs_eq g node_id outs init hmem
    (fun c hc _ => (hcons c hc).1), if_pos hin]
  refine ⟨_, rfl, ?_⟩
  rw [dget_foldl_dinsert, hlast]

/-- A graph whose single connection carries an out-of-bounds input
index, as `add_connection` accepts (cf. the C6 counterexample). -/
def gBadIdx : StrategyGraph Nat :=
  { graph_id := "gb", name := "bad",
    nodes := [("A", mkNode Nat "A" [] [⟨"x", "any"⟩]),
              ("B", mkNode Nat "B" [⟨"y", "any", true⟩] [])],
    connections := [⟨"A", 0, "B", 5⟩] }

/-- Witness for C8: resolution succeeds on `gBadIdx` and the connection
with input index 5 (against one declared input) contributes nothing. -/
theorem prepare_inputs_total_and_tolerant_witness :
    (∃ d, prepare_node_inputs gBadIdx "B" [("A", [("x", 42)])] [] = .ok d) ∧
    prepStep gBadIdx "B" [("A", [("x", 42)])] [] ⟨"A", 0, "B", 5⟩ =
      .ok [] := by
  have h := prepare_inputs_total_and_tolerant gBadIdx "B"
    [("A", [("x", 42)])] [] (by unfold Consistent; decide) (by decide)
  exact ⟨h.1, h.2.1 ⟨"A", 0, "B", 5⟩ (by decide) [] (by decide)⟩

/-- Two connections feeding the same declared input of B from two
different outputs of A. -/
def gDup : StrategyGraph Nat :=
  { graph_id := "gd", name := "dup",
    nodes := [("A", mkNode Nat "A" [] [⟨"x1", "any"⟩, ⟨"x2", "any"⟩]),
              ("B", mkNode Nat "B" [⟨"y", "any", true⟩] [])],
    connections := [⟨"A", 0, "B", 0⟩, ⟨"A", 1, "B", 0⟩] }

/-- Witness for C10: with both connections delivering to input "y", the
second (later) connection's value 2 wins. -/
theorem last_connection_wins_witness :
    ∃ d, prepare_node_inputs gDup "B" [("A", [("x1", 1), ("x2", 2)])] [] =
        .ok d ∧ dget d "y" = some 2 :=
  last_connection_wins gDup "B" [("A", [("x1", 1), ("x2", 2)])] [] "y"
    ("y", 2) (by unfold Consistent; decide) (by decide) (by decide) (by decide)

/-! ### Fail-fast characterisation of the execution loop -/

/-- Case analysis of the per-node loop.  When it raises, it has cleanly
executed some prefix; when it returns, either every node ran with a
non-FAILED status, or it stopped at the first FAILED node, having
recorded exactly the prefix up to and including that node.  Prior entries
of the result object survive in every case. -/
theorem execLoop_char {Val : Type} (g : StrategyGraph Val) (eid : String)
    (init shared : SDict Val) :
    ∀ (l : List String) (result : GraphExecutionResult Val)
      (outs : SDict (SDict Val)),
      l.Nodup → (∀ x ∈ l, x ∉ dkeys result.node_results) →
      (∀ r' msg, execLoop g eid init shared l result outs = .error (r', msg) →
        (∃ p rest, l = p ++ rest ∧
          dkeys r'.node_results = dkeys result.node_results ++ p ∧
          (∀ y ∈ p, ∃ nr, dget r'.node_results y = some nr ∧
            nr.status ≠ NodeStatus.FAILED)) ∧
        r'.status = result.status ∧
        (∀ y ∈ dkeys result.node_results,
          dget r'.node_results y = dget result.node_results y)) ∧
      (∀ r' outs', execLoop g eid init shared l result outs = .ok (r', outs') →
        ((r'.status = result.status ∧
          r'.failed_node_id = result.failed_node_id ∧
          r'.error_message = result.error_message ∧
          dkeys r'.node_results = dkeys result.node_results ++ l ∧
          (∀ y ∈ l, ∃ nr, dget r'.node_results y = some nr ∧
            nr.status ≠ NodeStatus.FAILED)) ∨
        (∃ p x rest, l = p ++ x :: rest ∧
          r'.status = GraphExecutionStatus.FAILED ∧
          r'.failed_node_id = some x ∧
          dkeys r'.node_results = dkeys result.node_results ++ p ++ [x] ∧
          (∃ nr, dget r'.node_results x = some nr ∧
            nr.status = NodeStatus.FAILED ∧
            r'.error_message = nr.error_message) ∧
          (∀ y ∈ p, ∃ nr, dget r'.node_results y = some nr ∧
            nr.status ≠ NodeStatus.FAILED))) ∧
        (∀ y ∈ dkeys result.node_results,
          dget r'.node_results y = dget result.node_results y)) := by
  intro l
  induction l with
  | nil =>
      intro result outs _ _
      constructor
      · intro r' msg h
        simp only [execLoop] at h
        exact Except.noConfusion h
      · intro r' outs' h
        simp only [execLoop, Except.ok.injEq, Prod.mk.injEq] at h
        obtain ⟨h1, -⟩ := h
        subst h1
        exact ⟨Or.inl ⟨rfl, rfl, rfl, by simp, by simp⟩, fun y _ => rfl⟩
  | cons node_id rest ih =>
      intro result outs hnd hfresh
      have hfresh0 : node_id ∉ dkeys result.node_results :=
        hfresh node_id (List.mem_cons_self _ _)
      constructor
      · -- the loop raised
        intro r' msg h
        simp only [execLoop] at h
        cases hn : dget g.nodes node_id with
        | none =>
            simp only [hn, Except.error.injEq, Prod.mk.injEq] at h
            obtain ⟨h1, -⟩ := h
            subst h1
            exact ⟨⟨[], node_id :: rest, rfl, by simp, by simp⟩, rfl,
              fun y _ => rfl⟩
        | some node =>
            simp only [hn] at h
            cases hp : prepare_node_inputs g node_id outs init with
            | error e =>
                simp only [hp, Except.error.injEq, Prod.mk.injEq] at h
                obtain ⟨h1, -⟩ := h
                subst h1
                exact ⟨⟨[], node_id :: rest, rfl, by simp, by simp⟩, rfl,
                  fun y _ => rfl⟩
            | ok node_inputs =>
                simp only [hp] at h
                cases hr : node.run (nodeContext g eid node_id node_inputs shared) with
                | error e =>
                    simp only [hr, Except.error.injEq, Prod.mk.injEq] at h
                    obtain ⟨h1, -⟩ := h
                    subst h1
                    exact ⟨⟨[], node_id :: rest, rfl, by simp, by simp⟩, rfl,
                      fun y _ => rfl⟩
                | ok nr =>
                    simp only [hr] at h
                    have hkeys' : dkeys (dinsert result.node_results node_id nr) =
                        dkeys result.node_results ++ [node_id] :=
                      dkeys_dinsert_not_mem _ _ _ hfresh0
                    by_cases hst : nr.status = NodeStatus.FAILED
                    · simp only [if_pos hst] at h
                      exact Except.noConfusion h
                    · simp only [if_neg hst] at h
                      have hnd' : rest.Nodup := (List.nodup_cons.1 hnd).2
                      have hfresh' : ∀ x ∈ rest,
                          x ∉ dkeys (dinsert result.node_results node_id nr) := by
                        intro x hx
                        rw [hkeys']
                        intro hmem
                        rcases List.mem_append.1 hmem with hmem | hmem
                        · exact hfresh x (List.mem_cons_of_mem _ hx) hmem
                        · exact (List.nodup_cons.1 hnd).1
                            (List.mem_singleton.1 hmem ▸ hx)
                      obtain ⟨⟨p, rest', heq, hkeysE, hentE⟩, hstatE, hframeE⟩ :=
                        (ih { result with
                            node_results := dinsert result.node_results node_id nr }
                          (dinsert outs node_id nr.outputs) hnd' hfresh').1 r' msg h
                      have hsub : dkeys result.node_results ⊆
                          dkeys (dinsert result.node_results node_id nr) := by
                        rw [hkeys']
                        exact fun y hy => List.mem_append.2 (Or.inl hy)
                      refine ⟨⟨node_id :: p, rest', by simp [heq], ?_, ?_⟩,
                        hstatE, ?_⟩
                      · rw [hkeysE]
                        show dkeys (dinsert result.node_results node_id nr) ++ p = _
                        rw [hkeys', List.append_assoc, List.singleton_append]
                      · intro y hy
                        rcases List.mem_cons.1 hy with hy | hy
                        · subst hy
                          refine ⟨nr, ?_, hst⟩
                          rw [hframeE y (by rw [show dkeys ({ result with
                              node_results := dinsert result.node_results y nr } :
                              GraphExecutionResult Val).node_results =
                              dkeys result.node_results ++ [y] from hkeys']; simp)]
                          exact dget_dinsert_self _ _ _
                        · exact hentE y hy
                      · intro y hy
                        rw [hframeE y (hsub hy)]
                        exact dget_dinsert_ne _ _ _ _
                          (fun he => hfresh0 (he ▸ hy))
      · -- the loop returned
        intro r' outs' h
        simp only [execLoop] at h
        cases hn : dget g.nodes node_id with
        | none =>
            simp only [hn] at h
            exact Except.noConfusion h
        | some node =>
            simp only [hn] at h
            cases hp : prepare_node_inputs g node_id outs init with
            | error e =>
                simp only [hp] at h
                exact Except.noConfusion h
            | ok node_inputs =>
                simp only [hp] at h
                cases hr : node.run (nodeContext g eid node_id node_inputs shared) with
                | error e =>
                    simp only [hr] at h
                    exact Except.noConfusion h
                | ok nr =>
                    simp only [hr] at h
                    have hkeys' : dkeys (dinsert result.node_results node_id nr) =
                        dkeys result.node_results ++ [node_id] :=
                      dkeys_dinsert_not_mem _ _ _ hfresh0
                    by_cases hst : nr.status = NodeStatus.FAILED
                    · -- fail-fast break
                      simp only [if_pos hst, Except.ok.injEq, Prod.mk.injEq] at h
                      obtain ⟨h1, -⟩ := h
                      subst h1
                      refine ⟨Or.inr ⟨[], node_id, rest, rfl, rfl, rfl, ?_,
                        ⟨nr, dget_dinsert_self _ _ _, hst, rfl⟩, by simp⟩, ?_⟩
                      · simpa using hkeys'
                      · intro y hy
                        exact dget_dinsert_ne _ _ _ _
                          (fun he => hfresh0 (he ▸ hy))
                    · simp only [if_neg hst] at h
                      have hnd' : rest.Nodup := (List.nodup_cons.1 hnd).2
                      have hfresh' : ∀ x ∈ rest,
                          x ∉ dkeys (dinsert result.node_results node_id nr) := by
                        intro x hx
                        rw [hkeys']
                        intro hmem
                        rcases List.mem_append.1 hmem with hmem | hmem
                        · exact hfresh x (List.mem_cons_of_mem _ hx) hmem
                        · exact (List.nodup_cons.1 hnd).1
                            (List.mem_singleton.1 hmem ▸ hx)
                      obtain ⟨hmain, hframeO⟩ :=
                        (ih { result with
                            node_results := dinsert result.node_results node_id nr }
                          (dinsert outs node_id nr.outputs) hnd' hfresh').2 r' outs' h
                      have hsub : dkeys result.node_results ⊆
                          dkeys (dinsert result.node_results node_id nr) := by
                        rw [hkeys']
                        exact fun y hy => List.mem_append.2 (Or.inl hy)
                      have hframe1 : ∀ y ∈ dkeys result.node_results,
                          dget r'.node_results y = dget result.node_results y := by
                        intro y hy
                        rw [hframeO y (hsub hy)]
                        exact dget_dinsert_ne _ _ _ _
                          (fun he => hfresh0 (he ▸ hy))
                      have hhead : dget r'.node_results node_id = some nr := by
                        rw [hframeO node_id (by rw [hkeys']; simp)]
                        exact dget_dinsert_self _ _ _
                      refine ⟨?_, hframe1⟩
                      rcases hmain with
                        ⟨hs, hf, he, hk, hent⟩ | ⟨p, x, rest', heq, hs, hf, hk, hx, hent⟩
                      · refine Or.inl ⟨hs, hf, he, ?_, ?_⟩
                        · rw [hk]
                          show dkeys (dinsert result.node_results node_id nr) ++ rest = _
                          rw [hkeys', List.append_assoc, List.singleton_append]
                        · intro y hy
                          rcases List.mem_cons.1 hy with hy | hy
                          · subst hy
                            exact ⟨nr, hhead, hst⟩
                          · exact hent y hy
                      · refine Or.inr ⟨node_id :: p, x, rest', by simp [heq],
                          hs, hf, ?_, hx, ?_⟩
                        · rw [hk]
                          show dkeys (dinsert result.node_results node_id nr) ++ p ++ [x] = _
                          rw [hkeys']
                          simp [List.append_assoc]
                        · intro y hy
                          rcases List.mem_cons.1 hy with hy | hy
                          · subst hy
                            exact ⟨nr, hhead, hst⟩
                          · exact hent y hy

/-- C3: fail-fast.  If the node at (0-based) position `i` of the
topological order carries a FAILED result in the returned `node_results`
while all earlier nodes carry non-FAILED results, then the overall status
is FAILED, `failed_node_id` and `error_message` come from that node, and
`node_results` holds exactly the first `i + 1` nodes of the order. -/
theorem execute_failfast {Val : Type} (g : StrategyGraph Val)
    (history : List (GraphExecutionResult Val)) (tStart tEnd : Nat)
    (init shared : SDict Val) (order : List String) (i : Nat) (nid : String)
    (nr : NodeExecutionResult Val)
    (hnd : KeysNodup g)
    (htopo : get_topological_order g = .ok order)
    (hi : order.get? i = some nid)
    (hFail : dget (execute g history tStart tEnd init shared).1.node_results nid
      = some nr)
    (hFailStatus : nr.status = NodeStatus.FAILED)
    (hEarlier : ∀ j y, j < i → order.get? j = some y →
      ∃ nrj, dget (execute g history tStart tEnd init shared).1.node_results y
          = some nrj ∧ nrj.status ≠ NodeStatus.FAILED) :
    (execute g history tStart tEnd init shared).1.status =
      GraphExecutionStatus.FAILED ∧
    (execute g history tStart tEnd init shared).1.failed_node_id = some nid ∧
    (execute g history tStart tEnd init shared).1.error_message =
      nr.error_message ∧
    dkeys (execute g history tStart tEnd init shared).1.node_results =
      order.take (i + 1) := by
  have hordernd : order.Nodup := topo_ok_nodup g hnd order htopo
  have hchar := execLoop_char g ("exec_" ++ toString tStart) init shared order
    { execution_id := "exec_" ++ toString tStart, graph_id := g.graph_id,
      status := .RUNNING, started_at := tStart } [] hordernd
    (by intro x _ hx; simp [dkeys] at hx)
  cases hloop : execLoop g ("exec_" ++ toString tStart) init shared order
      { execution_id := "exec_" ++ toString tStart, graph_id := g.graph_id,
        status := .RUNNING, started_at := tStart } [] with
  | error pr =>
      obtain ⟨r0, msg⟩ := pr
      obtain ⟨⟨p, rest, heq, hkeys, hent⟩, hstat, hframe⟩ := hchar.1 r0 msg hloop
      have hrt : runTry g
          { execution_id := "exec_" ++ toString tStart, graph_id := g.graph_id,
            status := .RUNNING, started_at := tStart }
          ("exec_" ++ toString tStart) init shared = .error (r0, msg) := by
        simp only [runTry, htopo, hloop]
      have hresnr : (execute g history tStart tEnd init shared).1.node_results =
          r0.node_results := by
        simp only [execute, hrt]
      exfalso
      rw [hresnr] at hFail
      have hmem : nid ∈ dkeys r0.node_results := dget_mem_keys _ _ _ hFail
      rw [hkeys] at hmem
      simp only [dkeys, List.map_nil, List.nil_append] at hmem
      obtain ⟨nr', hget', hst'⟩ := hent nid hmem
      rw [hFail] at hget'
      exact hst' (Option.some.inj hget' ▸ hFailStatus)
  | ok pr =>
      obtain ⟨r0, outs0⟩ := pr
      obtain ⟨hmain, hframe⟩ := hchar.2 r0 outs0 hloop
      rcases hmain with ⟨hs, hf, he, hk, hent⟩ |
        ⟨p, x, rest, heq, hs, hf, hk, ⟨nr', hx, hxst, hermsg⟩, hent⟩
      · -- every node ran without failure: contradicts hFail
        have hcond : r0.status ≠ GraphExecutionStatus.FAILED := by
          rw [hs]; simp
        have hrt : runTry g
            { execution_id := "exec_" ++ toString tStart, graph_id := g.graph_id,
              status := .RUNNING, started_at := tStart }
            ("exec_" ++ toString tStart) init shared = .ok
            { { r0 with status := .COMPLETED } with
              final_outputs := (get_terminal_nodes g).foldl
                (fun fo node_id =>
                  match dget outs0 node_id with
                  | some outs => dinsert fo node_id outs
                  | none => fo)
                ({ r0 with status := .COMPLETED } :
                  GraphExecutionResult Val).final_outputs } := by
          simp only [runTry, htopo, hloop]
          rw [if_pos hcond]
        have hresnr : (execute g history tStart tEnd init shared).1.node_results =
            r0.node_results := by
          simp only [execute, hrt]
        exfalso
        rw [hresnr] at hFail
        have hmem : nid ∈ dkeys r0.node_results := dget_mem_keys _ _ _ hFail
        rw [hk] at hmem
        simp only [dkeys, List.map_nil, List.nil_append] at hmem
        obtain ⟨nr'', hget'', hst''⟩ := hent nid hmem
        rw [hFail] at hget''
        exact hst'' (Option.some.inj hget'' ▸ hFailStatus)
      · -- the loop stopped at the first FAILED node x
        have hcond : ¬ (r0.status ≠ GraphExecutionStatus.FAILED) := by
          rw [hs]; simp
        have hrt : runTry g
            { execution_id := "exec_" ++ toString tStart, graph_id := g.graph_id,
              status := .RUNNING, started_at := tStart }
            ("exec_" ++ toString tStart) init shared = .ok r0 := by
          simp only [runTry, htopo, hloop]
          rw [if_neg hcond]
        have hres : (execute g history tStart tEnd init shared).1 =
            { r0 with
              completed_at := some tEnd
              execution_time_ms := some (tEnd - tStart) } := by
          simp only [execute, hrt]
        rw [hres] at hFail hEarlier ⊢
        simp only at hFail hEarlier ⊢
        have hkeys0 : dkeys r0.node_results = p ++ [x] := by
          rw [hk]
          simp [dkeys]
        -- nid is the failed node x
        have hnidx : nid = x := by
          have hmem : nid ∈ dkeys r0.node_results := dget_mem_keys _ _ _ hFail
          rw [hkeys0] at hmem
          rcases List.mem_append.1 hmem with hmem | hmem
          · obtain ⟨nr'', hget'', hst''⟩ := hent nid hmem
            rw [hFail] at hget''
            exact absurd (Option.some.inj hget'' ▸ hFailStatus) hst''
          · exact List.mem_singleton.1 hmem
        subst hnidx
        have hnr : nr = nr' := by
          rw [hFail] at hx
          exact Option.some.inj hx
        have hip : i = p.length := by
          rcases Nat.lt_trichotomy i p.length with hlt | heqi | hgt
          · exfalso
            have hgi : order.get? i = p.get? i := by
              rw [heq]; exact List.get?_append hlt
            rw [hi] at hgi
            have hmemp : nid ∈ p := List.get?_mem hgi.symm
            obtain ⟨nr'', hget'', hst''⟩ := hent nid hmemp
            rw [hFail] at hget''
            exact hst'' (Option.some.inj hget'' ▸ hFailStatus)
          · exact heqi
          · exfalso
            have hpx : order.get? p.length = some nid := by
              rw [heq, List.get?_append_right (le_refl p.length)]
              simp
            obtain ⟨nrj, hgetj, hstj⟩ := hEarlier p.length nid hgt hpx
            rw [hFail] at hgetj
            exact hstj (Option.some.inj hgetj ▸ hFailStatus)
        refine ⟨hs, hf, ?_, ?_⟩
        · rw [hermsg, hnr]
        · rw [hkeys0, heq, hip, List.take_append_eq_append_take,
            List.take_of_length_le (by omega)]
          simp

/-- A node whose behaviour returns a FAILED result with message "boom". -/
def failNode : Node Nat :=
  { node_id := "F", node_type := "custom", category := .CUSTOM,
    inputs := [], outputs := [],
    run := fun _ => .ok
      { node_id := "F", status := .FAILED, error_message := some "boom" } }

/-- One-node graph whose node fails. -/
def gFail : StrategyGraph Nat :=
  { graph_id := "gf", name := "f", nodes := [("F", failNode)],
    connections := [] }

/-- Witness for C3 at `gFail`: the single node fails at position 0. -/
theorem execute_failfast_witness :
    (execute gFail [] 1 2 [] []).1.status = GraphExecutionStatus.FAILED ∧
    (execute gFail [] 1 2 [] []).1.failed_node_id = some "F" ∧
    (execute gFail [] 1 2 [] []).1.error_message = some "boom" ∧
    dkeys (execute gFail [] 1 2 [] []).1.node_results = ["F"] := by
  have h := execute_failfast gFail [] 1 2 [] [] ["F"] 0 "F"
    { node_id := "F", status := .FAILED, error_message := some "boom" }
    (by unfold KeysNodup; decide) rfl (by decide) (by decide) rfl
    (by intro j y hj _; exact absurd hj (Nat.not_lt_zero j))
  exact ⟨h.1, h.2.1, h.2.2.1, h.2.2.2⟩

/-! ### Dataflow delivery (claim C4) -/

/-- Source node A producing the fixed result `rA`, declaring output "x". -/
def nodeA4 {Val : Type} (rA : NodeExecutionResult Val) : Node Val :=
  { node_id := "A", node_type := "custom", category := .SOURCE,
    inputs := [], outputs := [⟨"x", "any"⟩], run := fun _ => .ok rA }

/-- Node B with declared input "y" and overridable behaviour `f`. -/
def nodeB4 {Val : Type}
    (f : NodeExecutionContext Val → Except String (NodeExecutionResult Val)) :
    Node Val :=
  { node_id := "B", node_type := "custom", category := .TRANSFORM,
    inputs := [⟨"y", "any", true⟩], outputs := [], run := f }

/-- The A → B dataflow graph: A's output "x" is wired to B's input "y". -/
def gC4 {Val : Type} (rA : NodeExecutionResult Val)
    (f : NodeExecutionContext Val → Except String (NodeExecutionResult Val)) :
    StrategyGraph Val :=
  { graph_id := "g4", name := "dataflow",
    nodes := [("A", nodeA4 rA), ("B", nodeB4 f)],
    connections := [⟨"A", 0, "B", 0⟩] }

/-- C4: data-flow correctness on the A→B graph.  When A's recorded
outputs contain `x ↦ v`, the `NodeExecutionContext` handed to B's
`execute` binds B's declared input name "y" to `v`: resolution produces
exactly `[("y", v)]`, and `execute` invokes B's behaviour `f` on
precisely that context. -/
theorem dataflow_delivery {Val : Type} (rA : NodeExecutionResult Val)
    (f : NodeExecutionContext Val → Except String (NodeExecutionResult Val))
    (v : Val) (tS tE : Nat) (shared : SDict Val)
    (hA : rA.status ≠ NodeStatus.FAILED)
    (hx : dget rA.outputs "x" = some v) :
    dget (nodeContext (gC4 rA f) ("exec_" ++ toString tS) "B" [("y", v)]
      shared).inputs "y" = some v ∧
    prepare_node_inputs (gC4 rA f) "B" (dinsert [] "A" rA.outputs) [] =
      .ok [("y", v)] ∧
    dget (execute (gC4 rA f) [] tS tE [] shared).1.node_results "B" =
      (match f (nodeContext (gC4 rA f) ("exec_" ++ toString tS) "B" [("y", v)]
          shared) with
       | .ok nrB => some nrB
       | .error _ => none) := by
  have hdel' : connDelivery (gC4 rA f) "B" (dinsert [] "A" rA.outputs)
      ⟨"A", 0, "B", 0⟩ = some ("y", v) := by
    rw [show connDelivery (gC4 rA f) "B" (dinsert [] "A" rA.outputs)
        ⟨"A", 0, "B", 0⟩ =
        (match dget rA.outputs "x" with
         | some v' => some ("y", v')
         | none => none) from rfl, hx]
  have hprep : prepare_node_inputs (gC4 rA f) "B" (dinsert [] "A" rA.outputs) []
      = .ok [("y", v)] := by
    rw [prepare_node_inputs_eq (gC4 rA f) "B" (dinsert [] "A" rA.outputs) []
      (show ("B" : String) ∈ (["A", "B"] : List String) by decide)
      (by intro c hc _
          rw [List.mem_singleton.1 hc]
          exact show ("A" : String) ∈ (["A", "B"] : List String) by decide)]
    rw [if_pos (show ((gC4 rA f).connections.any
      fun conn => conn.to_node_id == "B") = true from rfl)]
    rw [show List.filterMap
        (connDelivery (gC4 rA f) "B" (dinsert [] "A" rA.outputs))
        (gC4 rA f).connections =
          List.filterMap
            (connDelivery (gC4 rA f) "B" (dinsert [] "A" rA.outputs))
            [⟨"A", 0, "B", 0⟩] from rfl,
      List.filterMap_cons, hdel']
    rfl
  refine ⟨rfl, hprep, ?_⟩
  rcases hfB : f (nodeContext (gC4 rA f) ("exec_" ++ toString tS) "B"
      [("y", v)] shared) with e | nrB
  · simp only [execute, runTry,
      show get_topological_order (gC4 rA f) = .ok ["A", "B"] from rfl,
      execLoop,
      show dget (gC4 rA f).nodes "A" = some (nodeA4 rA) from rfl,
      show dget (gC4 rA f).nodes "B" = some (nodeB4 f) from rfl,
      show prepare_node_inputs (gC4 rA f) "A" [] [] = .ok ([] : SDict Val)
        from rfl,
      nodeA4, nodeB4, hprep, hA, ite_false, hfB]
    rw [dget_dinsert_ne _ _ _ _ (show ("A" : String) ≠ "B" by decide)]
    rfl
  · by_cases hstB : nrB.status = NodeStatus.FAILED
    · simp only [execute, runTry,
        show get_topological_order (gC4 rA f) = .ok ["A", "B"] from rfl,
        execLoop,
        show dget (gC4 rA f).nodes "A" = some (nodeA4 rA) from rfl,
        show dget (gC4 rA f).nodes "B" = some (nodeB4 f) from rfl,
        show prepare_node_inputs (gC4 rA f) "A" [] [] = .ok ([] : SDict Val)
          from rfl,
        nodeA4, nodeB4, hprep, hA, ite_false, ite_true, hfB, hstB,
        ne_self_iff_false]
      rw [dget_dinsert_self]
    · simp only [execute, runTry,
        show get_topological_order (gC4 rA f) = .ok ["A", "B"] from rfl,
        execLoop,
        show dget (gC4 rA f).nodes "A" = some (nodeA4 rA) from rfl,
        show dget (gC4 rA f).nodes "B" = some (nodeB4 f) from rfl,
        show prepare_node_inputs (gC4 rA f) "A" [] [] = .ok ([] : SDict Val)
          from rfl,
        nodeA4, nodeB4, hprep, hA, hstB, ite_false, ite_true, hfB]
      rw [if_pos (show GraphExecutionStatus.RUNNING ≠ GraphExecutionStatus.FAILED
        from by simp)]
      simp [dget_dinsert_self]

/-- A concrete COMPLETED result for A with output x ↦ 7. -/
def rAW : NodeExecutionResult Nat :=
  { node_id := "A", status := .COMPLETED, outputs := [("x", 7)] }

/-- A concrete behaviour for B echoing its received inputs. -/
def fBW : NodeExecutionContext Nat → Except String (NodeExecutionResult Nat) :=
  fun ctx => .ok { node_id := "B", status := .COMPLETED, outputs := ctx.inputs }

/-- Witness for C4 with A emitting x ↦ 7 and B echoing its inputs. -/
theorem dataflow_delivery_witness :
    dget (nodeContext (gC4 rAW fBW) ("exec_" ++ toString 3) "B" [("y", 7)]
      []).inputs "y" = some 7 ∧
    prepare_node_inputs (gC4 rAW fBW) "B" (dinsert [] "A" rAW.outputs) [] =
      .ok [("y", 7)] ∧
    dget (execute (gC4 rAW fBW) [] 3 4 [] []).1.node_results "B" =
      (match fBW (nodeContext (gC4 rAW fBW) ("exec_" ++ toString 3) "B"
          [("y", 7)] []) with
       | .ok nrB => some nrB
       | .error _ => none) :=
  dataflow_delivery rAW fBW 7 3 4 [] (by decide) (by decide)

end GraphRuntimeModel
